import Mathlib

/-!
Verification of the gear-change aggregation module (`pf_gear.py`).

The module is shallowly embedded: Python scalar values become the inductive
type `Val`, Python dicts become insertion-ordered association lists with
last-write-wins key collision semantics, and the HTTP layer is abstracted as
an environment `Env` that carries the configured API key together with oracles
for the CSV and JSON endpoints.  Every function also returns the list of
network calls it issued, so that "no network call is made" is expressible.
-/

namespace PFGear

/-- Python scalar values as they occur in the parsed CSV/JSON records:
`None`, strings, integers and booleans. -/
inductive Val where
  | none
  | str (s : String)
  | int (n : Int)
  | bool (b : Bool)
deriving DecidableEq, Repr

/-- A Python dict as an insertion-ordered association list.  The canonicalizer
`canonise` collapses duplicate keys with last-write-wins, mirroring a dict
comprehension. -/
abbrev Rec := List (String × Val)

/-- Python truthiness for the values of `Val`. -/
def pyTruthy : Val → Bool
  | .none => false
  | .str s => s ≠ ""
  | .int n => n ≠ 0
  | .bool b => b

/-- Python `str()` of a scalar. -/
def pyStr : Val → String
  | .none => "None"
  | .str s => s
  | .int n => toString n
  | .bool b => if b then "True" else "False"

/-- Python `a or b` on scalar values: the first operand if truthy, else the
second. -/
def pyOr (a b : Val) : Val := if pyTruthy a then a else b

/-- Python `d.get(k)`: the value stored under `k`, or `None` when absent. -/
def dget (d : Rec) (k : String) : Val :=
  match d.find? (fun p => p.1 == k) with
  | some p => p.2
  | none => .none

/-- Python `k in d` membership test on a dict. -/
def dmem (d : Rec) (k : String) : Bool := d.any (fun p => p.1 == k)

/-- ASCII whitespace stripped by Python `str.strip()` (space, tab, newline,
vertical tab, form feed, carriage return; the model is restricted to ASCII). -/
def isWSChar (c : Char) : Bool := c.toNat = 32 ∨ (9 ≤ c.toNat ∧ c.toNat ≤ 13)

/-- Characters matched by the regex class `[a-z0-9]` of `_snakify`. -/
def isLowerAlnum (c : Char) : Bool :=
  (97 ≤ c.toNat ∧ c.toNat ≤ 122) ∨ (48 ≤ c.toNat ∧ c.toNat ≤ 57)

/-- ASCII lowercasing of one character, the fragment of Python `str.lower()`
relevant to the record keys. -/
def lowerChar (c : Char) : Char :=
  if 65 ≤ c.toNat ∧ c.toNat ≤ 90 then Char.ofNat (c.toNat + 32) else c

/-- Drop trailing whitespace from a character list. -/
def dropTrailWS : List Char → List Char
  | [] => []
  | c :: cs =>
    match dropTrailWS cs with
    | [] => if isWSChar c then [] else [c]
    | res => c :: res

/-- Python `str.strip()` on a character list: drop leading then trailing
whitespace. -/
def pyStripL (l : List Char) : List Char := dropTrailWS (l.dropWhile isWSChar)

/-- Python `str.strip()` on strings. -/
def pyStripStr (s : String) : String := String.mk (pyStripL s.toList)

/-- Lowercase a whole string (ASCII). -/
def strLower (s : String) : String := String.mk (s.toList.map lowerChar)

/-- The regex substitution `re.sub(r"[^a-z0-9]+", "_", ·)`: every maximal run
of non-alphanumeric characters becomes a single underscore.  The boolean flag
records whether the previous character belonged to a run already replaced. -/
def subRuns : Bool → List Char → List Char
  | _, [] => []
  | inRun, c :: cs =>
    if isLowerAlnum c then c :: subRuns false cs
    else if inRun then subRuns true cs
    else '_' :: subRuns true cs

/-- The key normalizer `_snakify`: `re.sub(r"[^a-z0-9]+", "_", s.strip().lower())`. -/
def snakify (s : String) : String :=
  String.mk (subRuns false ((pyStripL s.toList).map lowerChar))

/-- Insert a binding into a dict: overwrite in place when the key exists,
append otherwise (Python dict insertion semantics). -/
def dictInsert (d : Rec) (k : String) (v : Val) : Rec :=
  if d.any (fun p => p.1 == k) then
    d.map (fun p => if p.1 == k then (k, v) else p)
  else d ++ [(k, v)]

/-- Build a dict from a pair list, later duplicates overwriting earlier ones
(the semantics of the dict comprehension in `_canonise`). -/
def dictOfPairs (ps : List (String × Val)) : Rec :=
  ps.foldl (fun d p => dictInsert d p.1 p.2) []

/-- The canonicalizer `_canonise`: snakify every key, keep every value. -/
def canonise (d : Rec) : Rec :=
  dictOfPairs (d.map (fun p => (snakify p.1, p.2)))

/-- Value of a digit character. -/
def digitVal (c : Char) : Nat := c.toNat - 48

/-- Characters matched by `[0-9]`. -/
def isDigitChar (c : Char) : Bool := 48 ≤ c.toNat ∧ c.toNat ≤ 57

/-- Digit-run parser for Python `int()`: digits with single underscores
allowed between digits. -/
def digitsVal (acc : Nat) : List Char → Option Nat
  | [] => some acc
  | [c] => if isDigitChar c then some (acc * 10 + digitVal c) else Option.none
  | c :: d :: cs =>
    if isDigitChar c then digitsVal (acc * 10 + digitVal c) (d :: cs)
    else if c = '_' then
      (if isDigitChar d then digitsVal (acc * 10 + digitVal d) cs else Option.none)
    else Option.none

/-- Python `int()` applied to a string: strip whitespace, optional sign,
then a digit run. -/
def pyIntOfStr (s : String) : Option Int :=
  match pyStripL s.toList with
  | '+' :: d :: ds => if isDigitChar d then (digitsVal 0 (d :: ds)).map Int.ofNat else Option.none
  | '-' :: d :: ds => if isDigitChar d then (digitsVal 0 (d :: ds)).map (fun n => -(Int.ofNat n)) else Option.none
  | d :: ds => if isDigitChar d then (digitsVal 0 (d :: ds)).map Int.ofNat else Option.none
  | [] => Option.none

/-- Python `int(x)` on a scalar value: ints pass through, bools become 0/1,
strings are parsed, anything else raises (modelled as `none`). -/
def pyInt : Val → Option Int
  | .int n => some n
  | .bool b => some (if b then 1 else 0)
  | .str s => pyIntOfStr s
  | .none => Option.none

/-- The helper `_parse_int`: `int(x)` with a literal zero result mapped to
"no value", and any exception mapped to "no value". -/
def parse_int (x : Val) : Option Int :=
  match pyInt x with
  | some v => if v = 0 then Option.none else some v
  | none => Option.none

/-- Alias keys for the runner number, in the order of the source literal
(Python iterates the set in an unspecified order; the literal order is fixed
here). -/
def RUNNER_NUM_KEYS : List String :=
  ["runner_number", "runnernumber", "no", "number",
   "saddle_number", "saddlenumber", "saddle_no",
   "tab_no", "tabno", "cloth", "cloth_number", "program_number"]

/-- Alias keys for the horse name. -/
def HORSE_NAME_KEYS : List String := ["horse_name", "runnername", "name", "horse"]

/-- Alias keys for the race number. -/
def RACE_NO_KEYS : List String := ["race_number", "racenumber", "race_no", "raceno", "race"]

/-- Alias keys for the gear-change text. -/
def GEAR_KEYS : List String :=
  ["gearchanges", "gear_changes", "gear_change", "gear", "gear_desc", "gear_description"]

/-- Alias keys for the scratched flag. -/
def SCRATCH_KEYS : List String := ["scratched", "is_scratched", "scratch"]

/-- The helper `_get_first`: first alias whose stored value is neither `""`
nor `None`; `None` when no alias qualifies. -/
def _get_first (d : Rec) : List String → Val
  | [] => .none
  | k :: rest =>
    if dmem d k ∧ dget d k ≠ .str "" ∧ dget d k ≠ .none then dget d k
    else _get_first d rest

/-- The helper `_runner_number`: `int(str(v).strip())` over the runner-number
aliases, zero treated as no value, exceptions swallowed. -/
def _runner_number (d : Rec) : Option Int :=
  match _get_first d RUNNER_NUM_KEYS with
  | .none => Option.none
  | v =>
    match pyIntOfStr (pyStripStr (pyStr v)) with
    | some n => if n = 0 then Option.none else some n
    | none => Option.none

/-- The helper `_horse_name`: the alias value when it is a non-blank string. -/
def _horse_name (d : Rec) : Option String :=
  match _get_first d HORSE_NAME_KEYS with
  | .str s => if pyStripStr s ≠ "" then some s else Option.none
  | _ => Option.none

/-- The helper `_race_number`: `_parse_int` over the race-number aliases. -/
def _race_number (d : Rec) : Option Int := parse_int (_get_first d RACE_NO_KEYS)

/-- The helper `_gear_text`: the stripped alias value when it is a non-blank
string. -/
def _gear_text (d : Rec) : Option String :=
  match _get_first d GEAR_KEYS with
  | .str s => if pyStripStr s ≠ "" then some (pyStripStr s) else Option.none
  | _ => Option.none

/-- Truthy tokens accepted by the scratched-flag parser. -/
def SCRATCH_TOKENS : List String := ["1", "true", "y", "yes", "t"]

/-- The helper `_is_scratched`: booleans pass through, non-blank strings are
compared (stripped, lowercased) against the truthy tokens, all else is false. -/
def _is_scratched (d : Rec) : Bool :=
  match _get_first d SCRATCH_KEYS with
  | .bool b => b
  | .str s =>
    if pyStripStr s ≠ "" then SCRATCH_TOKENS.contains (strLower (pyStripStr s)) else false
  | _ => false

/-- The helper `_first_track_name`: the stripped `track_name` of the first
canonicalized row that carries one as a non-blank string. -/
def firstTrackName : List Rec → Option String
  | [] => Option.none
  | raw :: rest =>
    match dget (canonise raw) "track_name" with
    | .str t => if pyStripStr t ≠ "" then some (pyStripStr t) else firstTrackName rest
    | _ => firstTrackName rest

/-! ### Date handling -/

/-- Days in a month, with Gregorian leap years (the validation performed by
`datetime.strptime`). -/
def daysInMonth (y m : Nat) : Nat :=
  if m = 2 then (if y % 4 = 0 ∧ (y % 100 ≠ 0 ∨ y % 400 = 0) then 29 else 28)
  else if m = 4 ∨ m = 6 ∨ m = 9 ∨ m = 11 then 30
  else 31

/-- Parse of a 1-or-2 digit numeric field of `strptime`. -/
def fieldNat : List Char → Option Nat
  | [a] => if isDigitChar a then some (digitVal a) else Option.none
  | [a, b] => if isDigitChar a ∧ isDigitChar b then some (digitVal a * 10 + digitVal b) else Option.none
  | _ => Option.none

/-- Split a character list at every dash (the shape check of
`strptime(s, "%Y-%m-%d")`). -/
def splitDashAux : List Char → List Char → List (List Char)
  | cur, [] => [cur.reverse]
  | cur, c :: cs => if c = '-' then cur.reverse :: splitDashAux [] cs else splitDashAux (c :: cur) cs

/-- The model of `datetime.strptime(s, "%Y-%m-%d")`: a 4-digit year and
1-or-2-digit month/day, validated against the calendar.  Failure models the
`ValueError` raised by Python. -/
def strptimeYmd (s : String) : Option (Nat × Nat × Nat) :=
  match splitDashAux [] s.toList with
  | [ys, ms, ds] =>
    match ys with
    | [a, b, c, d] =>
      if isDigitChar a ∧ isDigitChar b ∧ isDigitChar c ∧ isDigitChar d then
        match fieldNat ms, fieldNat ds with
        | some m, some dd =>
          if 1 ≤ (((digitVal a * 10 + digitVal b) * 10 + digitVal c) * 10 + digitVal d) ∧
             1 ≤ m ∧ m ≤ 12 ∧ 1 ≤ dd ∧
             dd ≤ daysInMonth (((digitVal a * 10 + digitVal b) * 10 + digitVal c) * 10 + digitVal d) m then
            some ((((digitVal a * 10 + digitVal b) * 10 + digitVal c) * 10 + digitVal d), m, dd)
          else Option.none
        | _, _ => Option.none
      else Option.none
    | _ => Option.none
  | _ => Option.none

/-- Zero-padded two-digit rendering. -/
def pad2 (n : Nat) : String := if n < 10 then "0" ++ toString n else toString n

/-- Zero-padded four-digit rendering. -/
def pad4 (n : Nat) : String :=
  if n < 10 then "000" ++ toString n
  else if n < 100 then "00" ++ toString n
  else if n < 1000 then "0" ++ toString n
  else toString n

/-- The model of `strftime("%d-%m-%Y")`. -/
def fmtDmy (t : Nat × Nat × Nat) : String := pad2 t.2.2 ++ "-" ++ pad2 t.2.1 ++ "-" ++ pad4 t.1

/-- Pattern `^(\d{4}-\d{2}-\d{2})[T ]`: a date prefix followed by `T` or a
space; yields the ten-character prefix. -/
def ymdPrefixT : List Char → Option String
  | a :: b :: c :: d :: '-' :: e :: f :: '-' :: g :: h :: t :: _ =>
    if isDigitChar a ∧ isDigitChar b ∧ isDigitChar c ∧ isDigitChar d ∧
       isDigitChar e ∧ isDigitChar f ∧ isDigitChar g ∧ isDigitChar h ∧
       (t = 'T' ∨ t = ' ') then
      some (String.mk [a, b, c, d, '-', e, f, '-', g, h])
    else Option.none
  | _ => Option.none

/-- Full match of `\d{4}-\d{2}-\d{2}`. -/
def ymdFull : List Char → Option String
  | [a, b, c, d, '-', e, f, '-', g, h] =>
    if isDigitChar a ∧ isDigitChar b ∧ isDigitChar c ∧ isDigitChar d ∧
       isDigitChar e ∧ isDigitChar f ∧ isDigitChar g ∧ isDigitChar h then
      some (String.mk [a, b, c, d, '-', e, f, '-', g, h])
    else Option.none
  | _ => Option.none

/-- Full match of `(\d{2})-(\d{2})-(\d{4})`, re-emitted as `YYYY-MM-DD`. -/
def dmyFull : List Char → Option String
  | [a, b, '-', c, d, '-', e, f, g, h] =>
    if isDigitChar a ∧ isDigitChar b ∧ isDigitChar c ∧ isDigitChar d ∧
       isDigitChar e ∧ isDigitChar f ∧ isDigitChar g ∧ isDigitChar h then
      some (String.mk [e, f, g, h, '-', c, d, '-', a, b])
    else Option.none
  | _ => Option.none

/-- The date normalizer `_yyyy_mm_dd`: falsy input yields no value, otherwise
the stripped string representation is matched against the three accepted
shapes in source order. -/
def normDate (v : Val) : Option String :=
  if pyTruthy v then
    let l := pyStripL (pyStr v).toList
    match ymdPrefixT l with
    | some r => some r
    | none =>
      match ymdFull l with
      | some r => some r
      | none => dmyFull l
  else Option.none

/-! ### HTTP layer -/

/-- Endpoint of the per-race form CSV. -/
def PF_FORM_CSV_URL : String := "https://api.puntingform.com.au/v2/form/form/csv"

/-- Endpoint of the meeting listing CSV. -/
def PF_MEETING_CSV_URL : String := "https://api.puntingform.com.au/v2/form/meeting/csv"

/-- Endpoint of the scratchings updates feed. -/
def PF_UPD_SCR_URL : String := "https://api.puntingform.com.au/v2/Updates/Scratchings"

/-- Endpoint of the conditions updates feed. -/
def PF_UPD_COND_URL : String := "https://api.puntingform.com.au/v2/Updates/Conditions"

/-- A network call: endpoint URL together with the query parameters. -/
abbrev Call := String × List (String × Val)

/-- Python exceptions escaping the module.  `runtimeError "PF_API_KEY not set"`
is the spec's `ConfigurationError`; `valueError` is the `strptime` failure;
`httpStatusError` is the spec's `UpstreamFetchError`. -/
inductive PyErr where
  | runtimeError (msg : String)
  | valueError
  | attributeError
  | httpStatusError (msg : String)
deriving DecidableEq, Repr

/-- The environment: the configured API key and oracles describing what the
two upstream endpoint families would deliver for each call.  A CSV failure of
any kind is already collapsed to `[]` by `_get_csv`, so the CSV oracle returns
plain row lists; the JSON oracle may fail (`_get_json` raises after exhausting
its auth strategies). -/
structure Env where
  apiKey : Option String
  csvData : Call → List Rec
  jsonData : Call → Except PyErr (List Rec)

/-- The fetcher `_get_csv`: without a key it raises `RuntimeError` before any
network traffic; with a key the (possibly empty) parsed rows are returned and
one logical network call is recorded.  The two auth attempts of the source are
abstracted into that single logical call. -/
def getCsv (env : Env) (url : String) (ps : List (String × Val)) :
    Except PyErr (List Rec) × List Call :=
  match env.apiKey with
  | none => (.error (.runtimeError "PF_API_KEY not set"), [])
  | some _ => (.ok (env.csvData (url, ps)), [(url, ps)])

/-- The fetcher `_get_json`: without a key it raises `RuntimeError` before any
network traffic; with a key the oracle's verdict (payload or
`HTTPStatusError`) is returned and one logical network call is recorded. -/
def getJson (env : Env) (url : String) (ps : List (String × Val)) :
    Except PyErr (List Rec) × List Call :=
  match env.apiKey with
  | none => (.error (.runtimeError "PF_API_KEY not set"), [])
  | some _ => (env.jsonData (url, ps), [(url, ps)])

/-! ### Meeting discovery -/

/-- One discovered meeting: the dict `{"meeting_id": mid, "meeting": venue}`.
`meetingId` is the optional parsed integer; `meeting` keeps the raw scalar the
or-chain produced. -/
structure Meeting where
  meetingId : Option Int
  meeting : Val
deriving DecidableEq, Repr

/-- The expression `(v or '').lower()`: empty string for falsy `v`, lowercasing
for strings, and an `AttributeError` for any other truthy scalar. -/
def pyLowerOrEmpty (v : Val) : Except PyErr String :=
  if pyTruthy v then
    match v with
    | .str s => .ok (strLower s)
    | _ => .error .attributeError
  else .ok ""

/-- Dedup key `f"{mid or 0}|{(venue or '').lower()}"` used by both discovery
dedup loops. -/
def meetingKey (mid : Option Int) (venue : Val) : Except PyErr String :=
  match pyLowerOrEmpty venue with
  | .error e => .error e
  | .ok vl => .ok (toString (mid.getD 0) ++ "|" ++ vl)

/-- Per-row body of the loop in `_meetings_from_meeting_csv`: canonicalize,
parse the meeting id, take the venue or-chain, and fold into the seen/out
accumulators under the dedup key. -/
def meetCsvRow (st : List String × List Meeting) (raw : Rec) :
    Except PyErr (List String × List Meeting) :=
  let c := canonise raw
  let mid := parse_int (dget c "meeting_id")
  let venue := pyOr (dget c "venue") (pyOr (dget c "track") (pyOr (dget c "course") (dget c "meeting")))
  match meetingKey mid venue with
  | .error e => .error e
  | .ok key =>
    if st.1.contains key then .ok st
    else .ok (st.1 ++ [key], st.2 ++ [⟨mid, venue⟩])

/-- The five query permutations tried by `_meetings_from_meeting_csv`, in
source order. -/
def MEETING_TRIES (ymd dmy : String) : List (List (String × Val)) :=
  [[("meetingDate", .str ymd)], [("date", .str ymd)], [("meeting_date", .str ymd)],
   [("meetingDate", .str dmy)], [("date", .str dmy)]]

/-- Loop of `_meetings_from_meeting_csv` over the query permutations. -/
def meetCsvGo (env : Env) (tries : List (List (String × Val)))
    (st : List String × List Meeting) : Except PyErr (List Meeting) × List Call :=
  match tries with
  | [] => (.ok st.2, [])
  | q :: rest =>
    match getCsv env PF_MEETING_CSV_URL q with
    | (.error e, t) => (.error e, t)
    | (.ok rows, t) =>
      match rows.foldlM meetCsvRow st with
      | .error e => (.error e, t)
      | .ok st' =>
        let (r, t') := meetCsvGo env rest st'
        (r, t ++ t')

/-- The discovery function `_meetings_from_meeting_csv`: reformat the date
(a `strptime` failure raises `ValueError` before any network call), then fold
the five query permutations into a deduplicated meeting list. -/
def meetingsFromMeetingCsv (env : Env) (dateStr : String) :
    Except PyErr (List Meeting) × List Call :=
  match strptimeYmd dateStr with
  | none => (.error .valueError, [])
  | some t => meetCsvGo env (MEETING_TRIES dateStr (fmtDmy t)) ([], [])

/-- Or-chain `c.get(k1) or c.get(k2) or ...` over a key list. -/
def orChain (c : Rec) : List String → Val
  | [] => .none
  | [k] => dget c k
  | k :: rest => pyOr (dget c k) (orChain c rest)

/-- Date aliases tried by the scratchings loop of `_meetings_from_updates`. -/
def SCR_DATE_KEYS : List String := ["meeting_date", "meetingdate", "meetingdateutc", "timestamp"]

/-- Date aliases tried by the conditions loop of `_meetings_from_updates`. -/
def COND_DATE_KEYS : List String := ["meeting_date", "meetingdate", "last_update", "timestamp"]

/-- The per-record date of `_meetings_from_updates`: normalize the alias
or-chain; when that yields nothing, fall back to normalizing
`c.get("meeting_date") or dmy` (the target date rendered `DD-MM-YYYY`). -/
def updMdate (c : Rec) (dateKeys : List String) (dmy : String) : Option String :=
  match normDate (orChain c dateKeys) with
  | some d => some d
  | none => normDate (pyOr (dget c "meeting_date") (.str dmy))

/-- Per-record body of the two loops in `_meetings_from_updates`: keep the
record only when its resolved date equals the target `ymd`, then fold its
`(meeting_id, venue)` into the id-keyed accumulator (`dict.setdefault`:
first-seen venue wins per id). -/
def updProcess (ymd dmy : String) (dateKeys : List String)
    (out : List (Int × Meeting)) (item : Rec) : List (Int × Meeting) :=
  let c := canonise item
  if updMdate c dateKeys dmy ≠ some ymd then out
  else
    let mid :=
      match parse_int (dget c "meeting_id") with
      | some n => some n
      | none => parse_int (dget c "meetingid")
    let venue := pyOr (dget c "track") (dget c "venue")
    match mid with
    | some m => if out.any (fun p => p.1 == m) then out else out ++ [(m, ⟨some m, venue⟩)]
    | none => out

/-- The discovery function `_meetings_from_updates`: harvest
`(meeting_id, venue)` pairs for the target date from the scratchings and
conditions feeds. -/
def meetingsFromUpdates (env : Env) (dateStr : String) :
    Except PyErr (List Meeting) × List Call :=
  match strptimeYmd dateStr with
  | none => (.error .valueError, [])
  | some t =>
    let dmy := fmtDmy t
    match getJson env PF_UPD_SCR_URL [] with
    | (.error e, tr) => (.error e, tr)
    | (.ok scr, tr1) =>
      let out1 := scr.foldl (updProcess dateStr dmy SCR_DATE_KEYS) []
      match getJson env PF_UPD_COND_URL [] with
      | (.error e, tr2) => (.error e, tr1 ++ tr2)
      | (.ok cond, tr2) =>
        (.ok ((cond.foldl (updProcess dateStr dmy COND_DATE_KEYS) out1).map (fun p => p.2)),
         tr1 ++ tr2)

/-- First-occurrence-wins deduplication of `_meetings_for_date` under the
composite key `f"{mid or 0}|{(venue or '').lower()}"`. -/
def dedupMeetings (ms : List Meeting) (seen : List String) (acc : List Meeting) :
    Except PyErr (List Meeting) :=
  match ms with
  | [] => .ok acc
  | m :: rest =>
    match meetingKey m.meetingId m.meeting with
    | .error e => .error e
    | .ok key =>
      if seen.contains key then dedupMeetings rest seen acc
      else dedupMeetings rest (seen ++ [key]) (acc ++ [m])

/-- The discovery function `_meetings_for_date`: union of the listing result
and the updates result, deduplicated with listing entries first. -/
def meetingsForDate (env : Env) (dateStr : String) :
    Except PyErr (List Meeting) × List Call :=
  match meetingsFromMeetingCsv env dateStr with
  | (.error e, t) => (.error e, t)
  | (.ok a, ta) =>
    match meetingsFromUpdates env dateStr with
    | (.error e, tb) => (.error e, ta ++ tb)
    | (.ok b, tb) => (dedupMeetings (a ++ b) [] [], ta ++ tb)

/-! ### Gear extraction -/

/-- One retained gear row, the dict appended to `all_rows` in
`_gear_from_meeting_csv`. -/
structure GearRow where
  raceNumber : Nat
  runnerNumber : Option Int
  horseName : Option String
  runnerId : Option Int
  gearChange : String
deriving DecidableEq, Repr

/-- The gear row built from one canonicalized record `c` whose top-level
`gearchanges` value is the string `g`. -/
def gearRowOfRec (rn : Nat) (c : Rec) (g : String) : GearRow :=
  ⟨rn, _runner_number c, _horse_name c, parse_int (dget c "runner_id"), pyStripStr g⟩

/-- Loop body of the per-race row extraction: only a non-blank string under
the exact canonical key `gearchanges` qualifies, scratched runners are
skipped. -/
def gearRowStep (rn : Nat) (acc : List GearRow) (raw : Rec) : List GearRow :=
  match dget (canonise raw) "gearchanges" with
  | .str g =>
    if pyStripStr g ≠ "" then
      if _is_scratched (canonise raw) then acc else acc ++ [gearRowOfRec rn (canonise raw) g]
    else acc
  | _ => acc

/-- Per-race row extraction of `_gear_from_meeting_csv`. -/
def gearRowsOfRace (rn : Nat) (rows : List Rec) : List GearRow :=
  rows.foldl (gearRowStep rn) []

/-- Identity filter `r.get("horse_name") or r.get("runner_id")` applied to the
accumulated rows. -/
def keepIdentity (r : GearRow) : Bool :=
  (match r.horseName with | some s => s ≠ "" | none => false) ||
  (match r.runnerId with | some n => n ≠ 0 | none => false)

/-- The final filter of `_gear_from_meeting_csv`: retain only rows with some
identity. -/
def finalFilter (l : List GearRow) : List GearRow := l.filter keepIdentity

/-- Query parameters of the per-race form call. -/
def formParams (mid : Int) (rn : Nat) : List (String × Val) :=
  [("meetingId", .int mid), ("raceNumber", .int rn)]

/-- The race loop of `_gear_from_meeting_csv` over the remaining race numbers,
carrying the consecutive-empty streak, the accumulated rows and the cached
meeting name. -/
def gearGo (env : Env) (mid : Int) :
    List Nat → Nat → List GearRow → Option String →
    Except PyErr (List GearRow × Option String) × List Call
  | [], _, acc, nm => (.ok (finalFilter acc, nm), [])
  | rn :: rest, ce, acc, nm =>
    match getCsv env PF_FORM_CSV_URL (formParams mid rn) with
    | (.error e, t) => (.error e, t)
    | (.ok rows, t) =>
      if rows.isEmpty then
        if 2 ≤ ce + 1 then (.ok (finalFilter acc, nm), t)
        else
          ((gearGo env mid rest (ce + 1) acc nm).1,
           t ++ (gearGo env mid rest (ce + 1) acc nm).2)
      else
        ((gearGo env mid rest 0 (acc ++ gearRowsOfRace rn rows)
            (match nm with | some s => some s | none => firstTrackName rows)).1,
         t ++ (gearGo env mid rest 0 (acc ++ gearRowsOfRace rn rows)
            (match nm with | some s => some s | none => firstTrackName rows)).2)

/-- The extraction function `_gear_from_meeting_csv`: race numbers 1 through
15, early stop on two consecutive empty results. -/
def gearFromMeetingCsv (env : Env) (mid : Int) :
    Except PyErr (List GearRow × Option String) × List Call :=
  gearGo env mid (List.range' 1 15) 0 [] Option.none

/-- Recover the race number queried by a form-CSV call, for reasoning about
the calls the extraction loop issued. -/
def raceOfCall (c : Call) : Option Nat :=
  if c.1 = PF_FORM_CSV_URL then
    match c.2.find? (fun p => p.1 == "raceNumber") with
    | some (_, .int n) => some n.toNat
    | _ => Option.none
  else Option.none

/-- The race numbers `_gear_from_meeting_csv` actually queried for a meeting. -/
def queriedRaces (env : Env) (mid : Int) : List Nat :=
  (gearFromMeetingCsv env mid).2.filterMap raceOfCall

/-- The rows the CSV endpoint would deliver for one race of one meeting. -/
def raceData (env : Env) (mid : Int) (rn : Nat) : List Rec :=
  env.csvData (PF_FORM_CSV_URL, formParams mid rn)

/-! ### Aggregator -/

/-- One runner entry of the output report (the per-runner dict built in
`fetch_gear_for_date`). -/
structure RunnerOut where
  runnerNumber : Option Int
  horseName : Option String
  runnerId : Option Int
  gearChange : String
deriving DecidableEq, Repr

/-- One race of the output report. -/
structure RaceOut where
  raceNumber : Nat
  runners : List RunnerOut
deriving DecidableEq, Repr

/-- One meeting of the output report. -/
structure MeetingOut where
  meetingId : Option Int
  meeting : Val
  races : List RaceOut
deriving DecidableEq, Repr

/-- The terminal report `{"date": ..., "meetings": [...]}`. -/
structure Report where
  date : String
  meetings : List MeetingOut
deriving DecidableEq, Repr

/-- Drop the race number from a gear row (the per-runner dict of the race
grouping). -/
def toRunnerOut (r : GearRow) : RunnerOut :=
  ⟨r.runnerNumber, r.horseName, r.runnerId, r.gearChange⟩

/-- Add one row to the `races_map` grouping: append to the existing group of
its race number, or open a new group at the end (`dict.setdefault`). -/
def addToGroup (gs : List (Nat × List RunnerOut)) (rn : Nat) (r : RunnerOut) :
    List (Nat × List RunnerOut) :=
  if gs.any (fun g => g.1 == rn) then
    gs.map (fun g => if g.1 == rn then (g.1, g.2 ++ [r]) else g)
  else gs ++ [(rn, [r])]

/-- Group the extracted rows by race number in first-appearance order.  (The
source also skips rows with a `None` race number; in this typed embedding
`raceNumber` is always present, so that guard is vacuous.) -/
def groupRows (rows : List GearRow) : List (Nat × List RunnerOut) :=
  rows.foldl (fun gs r => addToGroup gs r.raceNumber (toRunnerOut r)) []

/-- Insertion into a sorted list, placing the new element after every element
it is `le`-dominated by — the stable-insert step of Python `sorted`. -/
def insertLe (le : α → α → Bool) (x : α) : List α → List α
  | [] => [x]
  | y :: ys => if le y x then y :: insertLe le x ys else x :: y :: ys

/-- Stable insertion sort, the model of Python `sorted(l, key=...)`. -/
def isort (le : α → α → Bool) (l : List α) : List α :=
  l.foldl (fun acc x => insertLe le x acc) []

/-- Code-point comparison of two character lists, the model of Python string
comparison (a prefix sorts before its extensions). -/
def charListLe : List Char → List Char → Bool
  | [], _ => true
  | _ :: _, [] => false
  | a :: as, b :: bs =>
    decide (a.toNat < b.toNat) || (a.toNat == b.toNat && charListLe as bs)

/-- The runner sort key of `fetch_gear_for_date`:
`(x["runner_number"] is None, x["runner_number"] or 0, (x["horse_name"] or "").lower())`. -/
def runnerSortKey (r : RunnerOut) : Bool × Int × List Char :=
  (r.runnerNumber.isNone, r.runnerNumber.getD 0, (strLower (r.horseName.getD "")).toList)

/-- Strict order on booleans, `False < True` as Python compares them. -/
def boolLt (a b : Bool) : Bool := !a && b

/-- Lexicographic comparison of runner sort keys (Python tuple comparison). -/
def keyLe (p q : Bool × Int × List Char) : Bool :=
  boolLt p.1 q.1 ||
    (p.1 == q.1 &&
      (decide (p.2.1 < q.2.1) || (p.2.1 == q.2.1 && charListLe p.2.2 q.2.2)))

/-- The runner ordering of the report: known runner numbers first, then
ascending number, then case-insensitive horse name. -/
def runnerLe (a b : RunnerOut) : Bool := keyLe (runnerSortKey a) (runnerSortKey b)

/-- Race-group comparison by race number (the `key=lambda kv: kv[0]` sort). -/
def groupLe (a b : Nat × List RunnerOut) : Bool := a.1 ≤ b.1

/-- The `races_out` construction: groups sorted ascending by race number, each
group's runners sorted by the runner key. -/
def racesOut (rows : List GearRow) : List RaceOut :=
  (isort groupLe (groupRows rows)).map (fun g => ⟨g.1, isort runnerLe g.2⟩)

/-- Assemble one output meeting from its extraction result, preferring the CSV
track name over the discovery venue for the label. -/
def mkMeetingOut (mid : Int) (venue : Val) (trackName : Option String)
    (rows : List GearRow) : MeetingOut :=
  ⟨some mid, (match trackName with | some s => .str s | none => venue), racesOut rows⟩

/-- The per-meeting loop of `fetch_gear_for_date`: meetings without a truthy
id pass through with an empty race list, the rest run gear extraction. -/
def fetchMeetings (env : Env) :
    List Meeting → Except PyErr (List MeetingOut) × List Call
  | [] => (.ok [], [])
  | m :: rest =>
    match (match m.meetingId with | some n => if n = 0 then Option.none else some n | none => Option.none) with
    | none =>
      ((fetchMeetings env rest).1.map (fun l => ⟨Option.none, m.meeting, []⟩ :: l),
       (fetchMeetings env rest).2)
    | some mid =>
      match gearFromMeetingCsv env mid with
      | (.error e, t) => (.error e, t)
      | (.ok (rows, trackName), t1) =>
        ((fetchMeetings env rest).1.map (fun l => mkMeetingOut mid m.meeting trackName rows :: l),
         t1 ++ (fetchMeetings env rest).2)

/-- The public entry point `fetch_gear_for_date`. -/
def fetchGearForDate (env : Env) (dateStr : String) : Except PyErr Report × List Call :=
  match meetingsForDate env dateStr with
  | (.error e, t) => (.error e, t)
  | (.ok ms, t) =>
    match fetchMeetings env ms with
    | (.error e, t') => (.error e, t ++ t')
    | (.ok outs, t') => (.ok ⟨dateStr, outs⟩, t ++ t')

/-! ### Spec-side and auxiliary definitions used by the claims -/

/-- Collapse runs of consecutive underscores to a single underscore. -/
def squeezeUS : List Char → List Char
  | [] => []
  | [a] => [a]
  | a :: b :: rest =>
    if a = '_' ∧ b = '_' then squeezeUS (b :: rest) else a :: squeezeUS (b :: rest)

/-- Modelled from the spec's words for the amended key normalization:
lowercase the (stripped) key, mask every non-alphanumeric character to an
underscore, and collapse underscore runs — with no trimming of leading or
trailing underscores.  To be compared against the source-side `snakify`. -/
def canonKeySpec (s : String) : String :=
  String.mk (squeezeUS (((pyStripL s.toList).map lowerChar).map
    (fun c => if isLowerAlnum c then c else '_')))

/-- A gear row legitimately produced from one raw record of one race: the
record's exact `gearchanges` key holds a non-blank string, the record is not
flagged scratched, and the row is the one `_gear_from_meeting_csv` builds. -/
def GoodRow (rn : Nat) (raw : Rec) (r : GearRow) : Prop :=
  ∃ g, dget (canonise raw) "gearchanges" = .str g ∧ pyStripStr g ≠ "" ∧
    _is_scratched (canonise raw) = false ∧ r = gearRowOfRec rn (canonise raw) g

/-- The output meeting id `fetch_gear_for_date` reports for a discovered
meeting: `None` for a falsy discovery id, the id itself otherwise. -/
def outIdOf (m : Meeting) : Option Int :=
  match m.meetingId with
  | some n => if n = 0 then Option.none else some n
  | none => Option.none

/-! ### Concrete environments and records used as witnesses -/

/-- An environment with no configured API key. -/
def envNoKey : Env := ⟨Option.none, fun _ => [], fun _ => .ok []⟩

/-- A keyed environment whose endpoints all deliver no data. -/
def envEmptyData : Env := ⟨some "k", fun _ => [], fun _ => .ok []⟩

/-- Form rows for races 1-3 and 6 only: the two-consecutive-empty early-stop
scenario of the spec. -/
def envStop : Env :=
  ⟨some "k",
   fun c =>
     match raceOfCall c with
     | some rn => if rn = 1 ∨ rn = 2 ∨ rn = 3 ∨ rn = 6 then [[("GearChanges", .str "B")]] else []
     | none => [],
   fun _ => .ok []⟩

/-- A raw form row carrying gear text, a horse name and a runner number. -/
def rawFast : Rec :=
  [("GearChanges", .str " Blinkers ON "), ("RunnerName", .str "Fast Deer"), ("No", .str "4")]

/-- The gear row `_gear_from_meeting_csv` extracts from `rawFast` at race 1. -/
def rowFast : GearRow := ⟨1, some 4, some "Fast Deer", Option.none, "Blinkers ON"⟩

/-- An environment delivering `rawFast` for race 1 of any meeting. -/
def envGear : Env :=
  ⟨some "k",
   fun c => match raceOfCall c with | some 1 => [rawFast] | _ => [],
   fun _ => .ok []⟩

/-- A raw row whose gear text sits only under the alias `gear_changes`, never
under the exact canonical key `gearchanges`. -/
def rawAliasGear : Rec := [("Gear Changes", .str "Blinkers ON"), ("RunnerName", .str "Caballo")]

/-- A scratchings record with a meeting id and venue but no date field at all. -/
def recNoDate : Rec := [("meetingId", .str "7"), ("track", .str "Wagga")]

/-- An environment whose scratchings feed delivers only `recNoDate`. -/
def envUpdFallback : Env :=
  ⟨some "k", fun _ => [],
   fun c => if c.1 = PF_UPD_SCR_URL then .ok [recNoDate] else .ok []⟩

/-- A listing whose first query permutation yields the same meeting id twice
with case-variant venues. -/
def envFlem : Env :=
  ⟨some "k",
   fun c =>
     if c.1 = PF_MEETING_CSV_URL ∧ c.2 = [("meetingDate", Val.str "2025-06-01")] then
       [[("Meeting Id", .str "501"), ("Venue", .str "Flemington")],
        [("Meeting Id", .str "501"), ("Venue", .str "FLEMINGTON")]]
     else [],
   fun _ => .ok []⟩

/-- An end-to-end environment: one listed meeting, race 1 carrying two
runners delivered in unsorted order. -/
def envAgg : Env :=
  ⟨some "k",
   fun c =>
     if c.1 = PF_MEETING_CSV_URL then
       (if c.2 = [("meetingDate", Val.str "2025-06-01")] then
          [[("Meeting Id", .str "101"), ("Venue", .str "Caulfield")]]
        else [])
     else
       match raceOfCall c with
       | some 1 =>
         [[("GearChanges", .str "Tongue Tie"), ("RunnerName", .str "Alpha")],
          [("GearChanges", .str "Blinkers ON"), ("RunnerName", .str "Zed"), ("No", .str "7")]]
       | _ => [],
   fun _ => .ok []⟩

/-- The report `fetch_gear_for_date` produces on `envAgg`. -/
def repAgg : Report :=
  ⟨"2025-06-01",
   [⟨some 101, .str "Caulfield",
     [⟨1, [⟨some 7, some "Zed", Option.none, "Blinkers ON"⟩,
           ⟨Option.none, some "Alpha", Option.none, "Tongue Tie"⟩]⟩]⟩]⟩

/-! ### Theorems -/

/-- C8: integer extraction of the string `"0"` or the number `0` for a
runner or race number yields no value, never the integer zero; strings that
`int()` accepts with a nonzero value parse to that value. -/
theorem parse_int_zero_is_absent :
    parse_int (.str "0") = Option.none ∧ parse_int (.int 0) = Option.none ∧
    _runner_number [("no", .str "0")] = Option.none ∧
    _runner_number [("no", .int 0)] = Option.none ∧
    _race_number [("race", .str "0")] = Option.none ∧
    ∀ s n, pyIntOfStr s = some n → n ≠ 0 → parse_int (.str s) = some n := by
  refine ⟨rfl, rfl, rfl, rfl, rfl, ?_⟩
  intro s n h hn
  simp [parse_int, pyInt, h, hn]

/-- Witness for C8: a concrete nonzero integer string parses to its value. -/
theorem parse_int_zero_is_absent_witness : parse_int (.str "42") = some 42 :=
  parse_int_zero_is_absent.2.2.2.2.2 "42" 42 rfl (by decide)

/-- C5 counterexample: the canonical key of the raw key `"(Race No.)"` keeps
its leading and trailing underscore — no underscore trimming happens. -/
theorem snakify_no_trim_cex :
    snakify "(Race No.)" = "_race_no_" ∧ snakify "(Race No.)" ≠ "race_no" ∧
    canonise [("(Race No.)", .str "1")] = [("_race_no_", .str "1")] :=
  ⟨rfl, by decide, rfl⟩

/-- C10: gear extraction reads the gear text only from the exact canonical
key `gearchanges`: rows without that key contribute nothing, even when the
alias set of `_gear_text` would find the text (as it does on `rawAliasGear`,
a non-scratched row with an identity). -/
theorem gear_exact_key_only :
    (∀ (rn : Nat) (rows : List Rec),
      (∀ raw ∈ rows, dget (canonise raw) "gearchanges" = Val.none) →
      gearRowsOfRace rn rows = []) ∧
    gearRowsOfRace 1 [rawAliasGear] = [] ∧
    _gear_text (canonise rawAliasGear) = some "Blinkers ON" ∧
    _horse_name (canonise rawAliasGear) = some "Caballo" ∧
    _is_scratched (canonise rawAliasGear) = false := by
  refine ⟨?_, rfl, rfl, rfl, rfl⟩
  intro rn rows h
  suffices haux : ∀ (l : List Rec) (acc : List GearRow),
      (∀ raw ∈ l, dget (canonise raw) "gearchanges" = Val.none) →
      l.foldl (gearRowStep rn) acc = acc by
    exact haux rows [] h
  intro l
  induction l with
  | nil => intro acc _; rfl
  | cons raw rest ih =>
    intro acc hl
    have hstep : gearRowStep rn acc raw = acc := by
      unfold gearRowStep
      rw [hl raw (List.mem_cons_self raw rest)]
    simp only [List.foldl_cons, hstep]
    exact ih acc (fun q hq => hl q (List.mem_cons_of_mem raw hq))

/-- Witness for C10: the alias-only row contributes no gear row at race 2
either. -/
theorem gear_exact_key_only_witness : gearRowsOfRace 2 [rawAliasGear] = [] :=
  gear_exact_key_only.1 2 [rawAliasGear] (by
    intro raw hraw
    rw [List.mem_singleton] at hraw
    subst hraw
    rfl)

/-- C2 counterexample: on a date string that is not a valid calendar date,
the missing-key failure is the `strptime` `ValueError`, not the
configuration error — so the claim's "for every date input" fails. -/
theorem no_key_bad_date_cex :
    fetchGearForDate envNoKey "2025-99-99" = (.error .valueError, []) ∧
    PyErr.valueError ≠ PyErr.runtimeError "PF_API_KEY not set" :=
  ⟨rfl, by decide⟩

/-- C2 amended: on a parseable `YYYY-MM-DD` date, a missing API key makes
`fetch_gear_for_date` fail with the configuration error (`RuntimeError
"PF_API_KEY not set"`) before any network call (the recorded call trace is
empty); and whenever discovery yields zero meetings the result is a report
with an empty meetings list, never an error. -/
theorem fetch_gear_key_and_empty (env : Env) (dateStr : String) :
    (env.apiKey = Option.none → (strptimeYmd dateStr).isSome →
      fetchGearForDate env dateStr = (.error (.runtimeError "PF_API_KEY not set"), [])) ∧
    (∀ t, meetingsForDate env dateStr = (.ok [], t) →
      fetchGearForDate env dateStr = (.ok ⟨dateStr, []⟩, t)) := by
  constructor
  · intro hk hd
    obtain ⟨tup, htup⟩ := Option.isSome_iff_exists.mp hd
    simp [fetchGearForDate, meetingsForDate, meetingsFromMeetingCsv, htup,
      MEETING_TRIES, meetCsvGo, getCsv, hk]
  · intro t h
    simp [fetchGearForDate, h, fetchMeetings]

/-- Witness for C2: the two behaviors at concrete inputs. -/
theorem fetch_gear_key_and_empty_witness :
    fetchGearForDate envNoKey "2025-06-01" =
      (.error (.runtimeError "PF_API_KEY not set"), []) ∧
    fetchGearForDate envEmptyData "2025-06-01" =
      (.ok ⟨"2025-06-01", []⟩, (meetingsForDate envEmptyData "2025-06-01").2) :=
  ⟨(fetch_gear_key_and_empty envNoKey "2025-06-01").1 rfl rfl,
   (fetch_gear_key_and_empty envEmptyData "2025-06-01").2
     ((meetingsForDate envEmptyData "2025-06-01").2) rfl⟩

/-- C4 counterexample: a scratchings record carrying no date field at all is
not discarded — the fallback assigns it the target date and it contributes a
meeting. -/
theorem updates_keep_dateless_cex :
    (meetingsFromUpdates envUpdFallback "2025-06-01").1 = .ok [⟨some 7, .str "Wagga"⟩] ∧
    (∀ k ∈ SCR_DATE_KEYS, dget (canonise recNoDate) k = Val.none) ∧
    normDate (orChain (canonise recNoDate) SCR_DATE_KEYS) = Option.none :=
  ⟨rfl, by decide, rfl⟩

/-- C4 amended: a record whose alias chain yields a normalizable date is kept
iff that date equals the target; when the chain yields no date, the loop
falls back to normalizing `meeting_date or <target as DD-MM-YYYY>`, and a
record failing the final comparison contributes no meeting. -/
theorem updates_date_filter :
    (∀ (c : Rec) (keys : List String) (dmy : String) (d' : String),
      normDate (orChain c keys) = some d' → updMdate c keys dmy = some d') ∧
    (∀ (c : Rec) (keys : List String) (dmy : String),
      normDate (orChain c keys) = Option.none →
      updMdate c keys dmy = normDate (pyOr (dget c "meeting_date") (.str dmy))) ∧
    (∀ (ymd dmy : String) (keys : List String) (out : List (Int × Meeting)) (item : Rec),
      updMdate (canonise item) keys dmy ≠ some ymd →
      updProcess ymd dmy keys out item = out) := by
  refine ⟨?_, ?_, ?_⟩
  · intro c keys dmy d' h
    unfold updMdate
    rw [h]
  · intro c keys dmy h
    unfold updMdate
    rw [h]
  · intro ymd dmy keys out item h
    unfold updProcess
    simp [h]

/-- Witness for C4: a record dated `2024-01-01` contributes nothing when the
target date is `2025-06-01`. -/
theorem updates_date_filter_witness :
    updProcess "2025-06-01" "01-06-2025" SCR_DATE_KEYS []
      [("meeting_date", Val.str "2024-01-01")] = [] :=
  updates_date_filter.2.2 "2025-06-01" "01-06-2025" SCR_DATE_KEYS []
    [("meeting_date", Val.str "2024-01-01")] (by decide)

/-- C6: meeting discovery deduplicates by the composite key
`f"{meeting_id or 0}|{lowercased venue or ''}"`, first occurrence wins, with
listing-source entries folded in before updates-source entries. -/
theorem meetings_union_dedup (env : Env) (dateStr : String)
    (a b : List Meeting) (ta tb : List Call)
    (ha : meetingsFromMeetingCsv env dateStr = (.ok a, ta))
    (hb : meetingsFromUpdates env dateStr = (.ok b, tb)) :
    meetingsForDate env dateStr = (dedupMeetings (a ++ b) [] [], ta ++ tb) := by
  unfold meetingsForDate
  rw [ha, hb]

/-- Witness for C6: the same meeting id with case-variant venues collapses to
a single meeting, the first occurrence (venue `"Flemington"`) retained. -/
theorem meetings_union_dedup_witness :
    meetingsForDate envFlem "2025-06-01" =
      (.ok [⟨some 501, .str "Flemington"⟩], (meetingsForDate envFlem "2025-06-01").2) :=
  (meetings_union_dedup envFlem "2025-06-01" [⟨some 501, .str "Flemington"⟩] []
    ((meetingsFromMeetingCsv envFlem "2025-06-01").2)
    ((meetingsFromUpdates envFlem "2025-06-01").2) rfl rfl).trans rfl

/-! ### Lemmas on the key normalizer -/

theorem mem_subRuns (l : List Char) :
    ∀ (b : Bool) (c : Char), c ∈ subRuns b l → isLowerAlnum c = true ∨ c = '_' := by
  induction l with
  | nil => intro b c hc; simp [subRuns] at hc
  | cons d ds ih =>
    intro b c hc
    cases h : isLowerAlnum d with
    | true =>
      simp only [subRuns, h, if_true, List.mem_cons] at hc
      rcases hc with rfl | hc
      · exact Or.inl h
      · exact ih false c hc
    | false =>
      cases b with
      | true =>
        simp only [subRuns, h] at hc
        simp only [Bool.false_eq_true, if_false, if_true] at hc
        exact ih true c hc
      | false =>
        simp only [subRuns, h] at hc
        simp only [Bool.false_eq_true, if_false, List.mem_cons] at hc
        rcases hc with rfl | hc
        · exact Or.inr rfl
        · exact ih true c hc

theorem subRuns_subRuns (l : List Char) :
    subRuns false (subRuns false l) = subRuns false l ∧
    subRuns false (subRuns true l) = subRuns true l ∧
    subRuns true (subRuns true l) = subRuns true l := by
  have hus : isLowerAlnum '_' = false := by decide
  induction l with
  | nil => exact ⟨rfl, rfl, rfl⟩
  | cons c cs ih =>
    cases h : isLowerAlnum c with
    | true => refine ⟨?_, ?_, ?_⟩ <;> simp [subRuns, h, ih.1]
    | false => refine ⟨?_, ?_, ?_⟩ <;> simp [subRuns, h, hus, ih.1, ih.2.1, ih.2.2]

theorem lowerChar_fixed (c : Char) (h : isLowerAlnum c = true ∨ c = '_') :
    lowerChar c = c := by
  rcases h with h | rfl
  · simp only [isLowerAlnum, decide_eq_true_eq] at h
    unfold lowerChar
    rw [if_neg]
    omega
  · decide

theorem not_ws_of_alnumUS (c : Char) (h : isLowerAlnum c = true ∨ c = '_') :
    isWSChar c = false := by
  rcases h with h | rfl
  · simp only [isLowerAlnum, decide_eq_true_eq] at h
    simp only [isWSChar, decide_eq_false_iff_not]
    omega
  · decide

theorem dropWhile_eq_self_of (p : Char → Bool) (l : List Char)
    (h : ∀ c ∈ l, p c = false) : l.dropWhile p = l := by
  cases l with
  | nil => rfl
  | cons c cs =>
    rw [List.dropWhile_cons, if_neg]
    simp [h c (List.mem_cons_self c cs)]

theorem dropTrailWS_eq_self (l : List Char) (h : ∀ c ∈ l, isWSChar c = false) :
    dropTrailWS l = l := by
  induction l with
  | nil => rfl
  | cons c cs ih =>
    have hcs := ih (fun d hd => h d (List.mem_cons_of_mem c hd))
    unfold dropTrailWS
    rw [hcs]
    cases cs with
    | nil => simp [h c (List.mem_cons_self c [])]
    | cons d ds => rfl

theorem pyStripL_eq_self (l : List Char) (h : ∀ c ∈ l, isWSChar c = false) :
    pyStripL l = l := by
  unfold pyStripL
  rw [dropWhile_eq_self_of _ _ h, dropTrailWS_eq_self _ h]

theorem map_eq_self_of_fixed {α : Type} (f : α → α) (l : List α)
    (h : ∀ c ∈ l, f c = c) : l.map f = l := by
  induction l with
  | nil => rfl
  | cons c cs ih =>
    rw [List.map_cons, h c (List.mem_cons_self c cs),
      ih (fun d hd => h d (List.mem_cons_of_mem c hd))]

theorem snakify_idem (s : String) : snakify (snakify s) = snakify s := by
  unfold snakify
  show String.mk (subRuns false ((pyStripL (subRuns false ((pyStripL s.toList).map lowerChar))).map lowerChar)) = _
  have hmem : ∀ c ∈ subRuns false ((pyStripL s.toList).map lowerChar),
      isLowerAlnum c = true ∨ c = '_' :=
    fun c hc => mem_subRuns _ false c hc
  rw [pyStripL_eq_self _ (fun c hc => not_ws_of_alnumUS c (hmem c hc))]
  rw [map_eq_self_of_fixed lowerChar _ (fun c hc => lowerChar_fixed c (hmem c hc))]
  rw [(subRuns_subRuns _).1]

/-! ### Lemmas on dict building -/

theorem map_fst_if (k : String) (v : Val) (d : Rec) :
    (d.map (fun p => if p.1 == k then (k, v) else p)).map Prod.fst = d.map Prod.fst := by
  induction d with
  | nil => rfl
  | cons p ps ih =>
    simp only [List.map_cons, ih]
    congr 1
    cases hp : p.1 == k with
    | true =>
      have hpk : p.1 = k := by simpa using hp
      simp [hp, hpk]
    | false => simp [hp]

theorem mem_fst_dictInsert (d : Rec) (k' : String) (v : Val) (k : String)
    (h : k ∈ (dictInsert d k' v).map Prod.fst) : k ∈ d.map Prod.fst ∨ k = k' := by
  unfold dictInsert at h
  cases ha : d.any (fun p => p.1 == k') with
  | true =>
    rw [ha] at h
    simp only [if_true] at h
    rw [map_fst_if] at h
    exact Or.inl h
  | false =>
    rw [ha] at h
    simp only [Bool.false_eq_true, if_false, List.map_append, List.map_cons, List.map_nil,
      List.mem_append, List.mem_cons, List.not_mem_nil, or_false] at h
    exact h

theorem nodup_fst_dictInsert (d : Rec) (k : String) (v : Val)
    (h : (d.map Prod.fst).Nodup) : ((dictInsert d k v).map Prod.fst).Nodup := by
  unfold dictInsert
  cases ha : d.any (fun p => p.1 == k) with
  | true =>
    rw [if_pos rfl, map_fst_if]
    exact h
  | false =>
    rw [if_neg (by simp)]
    have hk : k ∉ d.map Prod.fst := by
      intro hmem
      rcases List.mem_map.mp hmem with ⟨p, hp, hpk⟩
      have : d.any (fun p => p.1 == k) = true :=
        List.any_eq_true.mpr ⟨p, hp, by simp [hpk]⟩
      rw [ha] at this
      exact Bool.false_ne_true this
    simp [List.nodup_append, h, hk]

theorem nodup_fst_dictOfPairs (ps : List (String × Val)) :
    ((dictOfPairs ps).map Prod.fst).Nodup := by
  suffices aux : ∀ (l : List (String × Val)) (d : Rec), (d.map Prod.fst).Nodup →
      ((l.foldl (fun d p => dictInsert d p.1 p.2) d).map Prod.fst).Nodup by
    exact aux ps [] (by simp)
  intro l
  induction l with
  | nil => intro d h; exact h
  | cons p rest ih =>
    intro d h
    exact ih _ (nodup_fst_dictInsert d p.1 p.2 h)

theorem mem_fst_foldl_dictInsert :
    ∀ (ps : List (String × Val)) (d : Rec) (k : String),
      k ∈ (ps.foldl (fun d p => dictInsert d p.1 p.2) d).map Prod.fst →
      k ∈ d.map Prod.fst ∨ k ∈ ps.map Prod.fst := by
  intro ps
  induction ps with
  | nil => intro d k hk; exact Or.inl hk
  | cons p rest ih =>
    intro d k hk
    simp only [List.foldl_cons] at hk
    rcases ih (dictInsert d p.1 p.2) k hk with h | h
    · rcases mem_fst_dictInsert d p.1 p.2 k h with h1 | h1
      · exact Or.inl h1
      · exact Or.inr (by simp [h1])
    · exact Or.inr (by simp only [List.map_cons, List.mem_cons]; exact Or.inr h)

theorem foldl_dictInsert_fresh :
    ∀ (ps : List (String × Val)) (d : Rec),
      (ps.map Prod.fst).Nodup → (∀ k ∈ ps.map Prod.fst, k ∉ d.map Prod.fst) →
      ps.foldl (fun d p => dictInsert d p.1 p.2) d = d ++ ps := by
  intro ps
  induction ps with
  | nil => intro d _ _; simp
  | cons p rest ih =>
    intro d hnd hf
    simp only [List.map_cons, List.nodup_cons] at hnd
    have hany : d.any (fun q => q.1 == p.1) = false := by
      cases hq : d.any (fun q => q.1 == p.1) with
      | false => rfl
      | true =>
        rcases List.any_eq_true.mp hq with ⟨q, hq1, hq2⟩
        have hmem : p.1 ∈ d.map Prod.fst :=
          List.mem_map.mpr ⟨q, hq1, beq_iff_eq.mp hq2⟩
        exact absurd hmem (hf p.1 (by simp))
    have hins : dictInsert d p.1 p.2 = d ++ [p] := by
      unfold dictInsert
      rw [hany]
      simp
    simp only [List.foldl_cons, hins]
    rw [ih (d ++ [p]) hnd.2 ?fresh]
    · simp
    case fresh =>
      intro k hk hcontra
      simp only [List.map_append, List.mem_append, List.map_cons, List.map_nil,
        List.mem_cons, List.not_mem_nil, or_false] at hcontra
      rcases hcontra with h1 | h1
      · exact hf k (by simp only [List.map_cons, List.mem_cons]; exact Or.inr hk) h1
      · rw [h1] at hk
        exact hnd.1 hk

/-- C9: canonicalization is idempotent — canonicalizing an already-canonical
record changes neither keys nor values. -/
theorem canonicalize_idempotent (d : Rec) : canonise (canonise d) = canonise d := by
  have hkeys : ∀ k ∈ (canonise d).map Prod.fst, snakify k = k := by
    intro k hk
    have hk' : k ∈ ((d.map (fun p : String × Val => (snakify p.1, p.2))).foldl
        (fun d p => dictInsert d p.1 p.2) []).map Prod.fst := hk
    rcases mem_fst_foldl_dictInsert (d.map (fun p => (snakify p.1, p.2))) [] k hk' with h | h
    · simp at h
    · rw [List.map_map] at h
      rcases List.mem_map.mp h with ⟨p, _, heq⟩
      rw [← heq]
      exact snakify_idem p.1
  have hfix : (canonise d).map (fun p => (snakify p.1, p.2)) = canonise d := by
    apply map_eq_self_of_fixed
    intro p hp
    rw [hkeys p.1 (List.mem_map.mpr ⟨p, hp, rfl⟩)]
  have hnd : ((canonise d).map Prod.fst).Nodup :=
    nodup_fst_dictOfPairs (d.map (fun p : String × Val => (snakify p.1, p.2)))
  show dictOfPairs ((canonise d).map (fun p => (snakify p.1, p.2))) = canonise d
  rw [hfix]
  show (canonise d).foldl (fun d p => dictInsert d p.1 p.2) [] = canonise d
  exact (foldl_dictInsert_fresh (canonise d) [] hnd (by simp)).trans (by simp)

/-! ### Lemmas relating `snakify` to the spec-worded key normalization -/

theorem squeezeUS_cons_of_ne (c : Char) (hc : c ≠ '_') (l : List Char) :
    squeezeUS (c :: l) = c :: squeezeUS l := by
  cases l with
  | nil => rfl
  | cons b bs =>
    have hne : ¬(c = '_' ∧ b = '_') := fun hcb => hc hcb.1
    simp only [squeezeUS]
    rw [if_neg hne]

theorem subRuns_eq_squeezeUS (l : List Char) :
    subRuns false l = squeezeUS (l.map (fun c => if isLowerAlnum c then c else '_')) ∧
    '_' :: subRuns true l = squeezeUS ('_' :: l.map (fun c => if isLowerAlnum c then c else '_')) := by
  induction l with
  | nil => exact ⟨rfl, rfl⟩
  | cons c cs ih =>
    cases h : isLowerAlnum c with
    | true =>
      have hcu : c ≠ '_' := by
        intro he
        rw [he] at h
        exact absurd h (by decide)
      constructor
      · simp only [subRuns, h, if_true, List.map_cons]
        rw [squeezeUS_cons_of_ne c hcu, ih.1]
      · simp only [subRuns, h, if_true, List.map_cons]
        have h2 : squeezeUS ('_' :: c :: cs.map (fun c => if isLowerAlnum c then c else '_')) =
            '_' :: squeezeUS (c :: cs.map (fun c => if isLowerAlnum c then c else '_')) := by
          simp [squeezeUS, hcu]
        rw [h2, squeezeUS_cons_of_ne c hcu, ih.1]
    | false =>
      constructor
      · simp only [subRuns, h, Bool.false_eq_true, if_false, List.map_cons]
        exact ih.2
      · simp only [subRuns, h, Bool.false_eq_true, if_false, if_true, List.map_cons]
        have h2 : squeezeUS ('_' :: '_' :: cs.map (fun c => if isLowerAlnum c then c else '_')) =
            squeezeUS ('_' :: cs.map (fun c => if isLowerAlnum c then c else '_')) := by
          simp [squeezeUS]
        rw [h2]
        exact ih.2

theorem snakify_eq_canonKeySpec (s : String) : snakify s = canonKeySpec s := by
  unfold snakify canonKeySpec
  rw [(subRuns_eq_squeezeUS ((pyStripL s.toList).map lowerChar)).1]

/-- C5 amended: canonicalization lowercases each key and replaces every run
of non-alphanumeric characters with a single underscore, changing no values —
but it does not trim leading or trailing underscores, so `"(Race No.)"`
canonicalizes to `"_race_no_"`. -/
theorem canonise_key_normalization :
    (∀ s, snakify s = canonKeySpec s) ∧
    (∀ d : Rec, canonise d = dictOfPairs (d.map (fun p => (canonKeySpec p.1, p.2)))) ∧
    canonKeySpec "(Race No.)" = "_race_no_" := by
  refine ⟨snakify_eq_canonKeySpec, ?_, rfl⟩
  intro d
  unfold canonise
  have : (fun p : String × Val => (snakify p.1, p.2)) =
      fun p : String × Val => (canonKeySpec p.1, p.2) := by
    funext p
    rw [snakify_eq_canonKeySpec]
  rw [this]

/-! ### Lemmas on the extraction loop -/

theorem raceOfCall_formParams (mid : Int) (rn : Nat) :
    raceOfCall (PF_FORM_CSV_URL, formParams mid rn) = some rn := rfl

theorem gearGo_none_trace (env : Env) (mid : Int) (rn : Nat) (rest : List Nat)
    (ce : Nat) (acc : List GearRow) (nm : Option String) (hk : env.apiKey = Option.none) :
    gearGo env mid (rn :: rest) ce acc nm = (.error (.runtimeError "PF_API_KEY not set"), []) := by
  simp [gearGo, getCsv, hk]

theorem gearGo_cons_trace (env : Env) (mid : Int) (rn : Nat) (rest : List Nat)
    (ce : Nat) (acc : List GearRow) (nm : Option String) (key : String)
    (hk : env.apiKey = some key) :
    (gearGo env mid (rn :: rest) ce acc nm).2 =
      (PF_FORM_CSV_URL, formParams mid rn) ::
        (if (raceData env mid rn).isEmpty then
           (if 2 ≤ ce + 1 then [] else (gearGo env mid rest (ce + 1) acc nm).2)
         else
           (gearGo env mid rest 0 (acc ++ gearRowsOfRace rn (raceData env mid rn))
             (match nm with | some s => some s | none => firstTrackName (raceData env mid rn))).2) := by
  simp only [gearGo, getCsv, hk, raceData]
  by_cases he : (env.csvData (PF_FORM_CSV_URL, formParams mid rn)).isEmpty
  · by_cases hce : 2 ≤ ce + 1 <;> simp [he, hce]
  · simp [he]

theorem gearGo_queried_sub (env : Env) (mid : Int) :
    ∀ (rns : List Nat) (ce : Nat) (acc : List GearRow) (nm : Option String) (m : Nat),
      m ∈ (gearGo env mid rns ce acc nm).2.filterMap raceOfCall → m ∈ rns := by
  intro rns
  induction rns with
  | nil =>
    intro ce acc nm m h
    simp [gearGo] at h
  | cons rn rest ih =>
    intro ce acc nm m h
    cases hk : env.apiKey with
    | none =>
      rw [gearGo_none_trace env mid rn rest ce acc nm hk] at h
      simp at h
    | some key =>
      rw [gearGo_cons_trace env mid rn rest ce acc nm key hk] at h
      simp only [List.filterMap_cons, raceOfCall_formParams] at h
      rcases List.mem_cons.mp h with rfl | h2
      · exact List.mem_cons_self _ _
      · by_cases he : (raceData env mid rn).isEmpty
        · rw [if_pos he] at h2
          by_cases hce : 2 ≤ ce + 1
          · rw [if_pos hce] at h2
            simp at h2
          · rw [if_neg hce] at h2
            exact List.mem_cons_of_mem _ (ih _ _ _ _ h2)
        · rw [if_neg he] at h2
          exact List.mem_cons_of_mem _ (ih _ _ _ _ h2)

theorem gearGo_first_mem (env : Env) (mid : Int) (key : String) (hk : env.apiKey = some key)
    (rn : Nat) (rest : List Nat) (ce : Nat) (acc : List GearRow) (nm : Option String) :
    rn ∈ (gearGo env mid (rn :: rest) ce acc nm).2.filterMap raceOfCall := by
  rw [gearGo_cons_trace env mid rn rest ce acc nm key hk]
  simp only [List.filterMap_cons, raceOfCall_formParams]
  exact List.mem_cons_self _ _

theorem gearGo_stop (env : Env) (mid : Int) (j : Nat) (hj : 1 ≤ j)
    (hFj : raceData env mid j = []) (hFj1 : raceData env mid (j + 1) = []) :
    ∀ (len rn : Nat) (ce : Nat) (acc : List GearRow) (nm : Option String),
      (ce = 0 ∧ (rn = 1 ∨ (2 ≤ rn ∧ raceData env mid (rn - 1) ≠ [])) ∨
       ce = 1 ∧ 2 ≤ rn ∧ raceData env mid (rn - 1) = []) →
      (∀ i, 1 ≤ i → i + 1 < rn → ¬(raceData env mid i = [] ∧ raceData env mid (i + 1) = [])) →
      ∀ m ∈ (gearGo env mid (List.range' rn len) ce acc nm).2.filterMap raceOfCall, m ≤ j + 1 := by
  intro len
  induction len with
  | zero =>
    intro rn ce acc nm _ _ m hm
    simp [List.range', gearGo] at hm
  | succ n ih =>
    intro rn ce acc nm hce hnp m hm
    have hrn1 : 1 ≤ rn := by
      rcases hce with ⟨_, h | ⟨h, _⟩⟩ | ⟨_, h, _⟩ <;> omega
    have hr : List.range' rn (n + 1) = rn :: List.range' (rn + 1) n := rfl
    rw [hr] at hm
    cases hk : env.apiKey with
    | none =>
      rw [gearGo_none_trace env mid rn _ ce acc nm hk] at hm
      simp at hm
    | some key =>
      rw [gearGo_cons_trace env mid rn _ ce acc nm key hk] at hm
      simp only [List.filterMap_cons, raceOfCall_formParams] at hm
      rcases List.mem_cons.mp hm with rfl | hm2
      · by_contra hlt
        push_neg at hlt
        exact hnp j hj (by omega) ⟨hFj, hFj1⟩
      · by_cases he : (raceData env mid rn).isEmpty
        · rw [if_pos he] at hm2
          have hrnE : raceData env mid rn = [] := by
            simpa using he
          by_cases hce2 : 2 ≤ ce + 1
          · rw [if_pos hce2] at hm2
            simp at hm2
          · rw [if_neg hce2] at hm2
            have hce0 : ce = 0 := by omega
            refine ih (rn + 1) (ce + 1) acc nm (Or.inr ⟨by omega, by omega, by simpa using hrnE⟩)
              ?_ m hm2
            intro i hi hlt
            by_cases hcase : i + 1 < rn
            · exact hnp i hi hcase
            · have hieq : i + 1 = rn := by omega
              rintro ⟨hFi, _⟩
              rcases hce with ⟨_, hrn⟩ | ⟨hce1, _⟩
              · rcases hrn with h1 | ⟨_, hne⟩
                · omega
                · exact hne (by rw [← hieq]; simpa using hFi)
              · omega
        · rw [if_neg he] at hm2
          have hne : raceData env mid rn ≠ [] := by
            simpa using he
          refine ih (rn + 1) 0 _ _ (Or.inl ⟨rfl, Or.inr ⟨by omega, by simpa using hne⟩⟩)
            ?_ m hm2
          intro i hi hlt
          by_cases hcase : i + 1 < rn
          · exact hnp i hi hcase
          · have hieq : i + 1 = rn := by omega
            rintro ⟨_, hFi1⟩
            exact hne (by rw [← hieq]; exact hFi1)

/-- C1: for every meeting, gear extraction only ever queries race numbers
between 1 and 15 (starting with race 1 whenever a key is configured), and as
soon as two consecutive race queries come back empty no race beyond them is
queried. -/
theorem gear_loop_race_bounds (env : Env) (mid : Int) :
    (∀ m ∈ queriedRaces env mid, 1 ≤ m ∧ m ≤ 15) ∧
    (env.apiKey.isSome → 1 ∈ queriedRaces env mid) ∧
    (∀ j, 1 ≤ j → raceData env mid j = [] → raceData env mid (j + 1) = [] →
      ∀ m ∈ queriedRaces env mid, m ≤ j + 1) := by
  refine ⟨?_, ?_, ?_⟩
  · intro m hm
    have hmem := gearGo_queried_sub env mid (List.range' 1 15) 0 [] Option.none m hm
    rw [List.mem_range'_1] at hmem
    omega
  · intro hk
    obtain ⟨key, hkey⟩ := Option.isSome_iff_exists.mp hk
    exact gearGo_first_mem env mid key hkey 1 (List.range' 2 14) 0 [] Option.none
  · intro j hj hFj hFj1 m hm
    exact gearGo_stop env mid j hj hFj hFj1 15 1 0 [] Option.none
      (Or.inl ⟨rfl, Or.inl rfl⟩) (fun i hi hlt => absurd hlt (by omega)) m hm

/-- Witness for C1: with rows at races 1-3 and 6 but not 4-5, the loop
queries exactly races 1-5 and never race 6, although race 6 has data. -/
theorem gear_loop_race_bounds_witness :
    queriedRaces envStop 9 = [1, 2, 3, 4, 5] ∧
    (6 : Nat) ∉ queriedRaces envStop 9 ∧ raceData envStop 9 6 ≠ [] := by
  refine ⟨rfl, ?_, by decide⟩
  intro h6
  have hle := (gear_loop_race_bounds envStop 9).2.2 4 (by decide) rfl rfl 6 h6
  omega

/-! ### Lemmas on stripping and the retained gear rows -/

theorem dropTrailWS_idem (l : List Char) : dropTrailWS (dropTrailWS l) = dropTrailWS l := by
  induction l with
  | nil => rfl
  | cons c cs ih =>
    cases hcs : dropTrailWS cs with
    | nil =>
      by_cases hc : isWSChar c = true
      · simp [dropTrailWS, hcs, hc]
      · simp [dropTrailWS, hcs, hc]
    | cons d ds =>
      rw [hcs] at ih
      have h1 : dropTrailWS (c :: cs) = c :: d :: ds := by
        show (match dropTrailWS cs with
              | [] => if isWSChar c = true then [] else [c]
              | res => c :: res) = c :: d :: ds
        rw [hcs]
      rw [h1]
      show (match dropTrailWS (d :: ds) with
            | [] => if isWSChar c = true then [] else [c]
            | res => c :: res) = c :: d :: ds
      rw [ih]

theorem dropTrailWS_head (c : Char) (cs : List Char) :
    dropTrailWS (c :: cs) = [] ∨ ∃ t, dropTrailWS (c :: cs) = c :: t := by
  cases hcs : dropTrailWS cs with
  | nil =>
    by_cases hc : isWSChar c = true
    · left
      simp [dropTrailWS, hcs, hc]
    · right
      exact ⟨[], by simp [dropTrailWS, hcs, hc]⟩
  | cons d ds =>
    right
    exact ⟨d :: ds, by simp [dropTrailWS, hcs]⟩

theorem dropWhile_head (p : Char → Bool) (l : List Char) :
    l.dropWhile p = [] ∨ ∃ c t, l.dropWhile p = c :: t ∧ p c = false := by
  induction l with
  | nil => exact Or.inl rfl
  | cons c cs ih =>
    by_cases hc : p c = true
    · rw [List.dropWhile_cons, if_pos hc]
      exact ih
    · right
      refine ⟨c, cs, ?_, by simpa using hc⟩
      rw [List.dropWhile_cons, if_neg hc]

theorem pyStripL_idem (l : List Char) : pyStripL (pyStripL l) = pyStripL l := by
  unfold pyStripL
  rcases dropWhile_head isWSChar l with h | ⟨c, t, hct, hc⟩
  · rw [h]
    rfl
  · rw [hct]
    rcases dropTrailWS_head c t with h2 | ⟨t2, h2⟩
    · rw [h2]
      rfl
    · rw [h2, List.dropWhile_cons, if_neg (by simp [hc]), ← h2, dropTrailWS_idem]

theorem pyStripStr_idem (s : String) : pyStripStr (pyStripStr s) = pyStripStr s := by
  unfold pyStripStr
  show String.mk (pyStripL (pyStripL s.toList)) = _
  rw [pyStripL_idem]

theorem mem_gearRowStep (rn : Nat) (acc : List GearRow) (raw : Rec) (r : GearRow)
    (h : r ∈ gearRowStep rn acc raw) : r ∈ acc ∨ GoodRow rn raw r := by
  unfold gearRowStep at h
  split at h
  · rename_i g hg
    split at h
    · rename_i hs
      split at h
      · exact Or.inl h
      · rename_i hscr
        rcases List.mem_append.mp h with h1 | h1
        · exact Or.inl h1
        · rw [List.mem_singleton] at h1
          exact Or.inr ⟨g, hg, hs, by simpa using hscr, h1⟩
    · exact Or.inl h
  · exact Or.inl h

theorem mem_gearRowsOfRace_fold (rn : Nat) :
    ∀ (rows : List Rec) (acc : List GearRow) (r : GearRow),
      r ∈ rows.foldl (gearRowStep rn) acc → r ∈ acc ∨ ∃ raw ∈ rows, GoodRow rn raw r := by
  intro rows
  induction rows with
  | nil => intro acc r h; exact Or.inl h
  | cons raw rest ih =>
    intro acc r h
    simp only [List.foldl_cons] at h
    rcases ih (gearRowStep rn acc raw) r h with h1 | h1
    · rcases mem_gearRowStep rn acc raw r h1 with h2 | h2
      · exact Or.inl h2
      · exact Or.inr ⟨raw, List.mem_cons_self _ _, h2⟩
    · rcases h1 with ⟨q, hq, hgood⟩
      exact Or.inr ⟨q, List.mem_cons_of_mem _ hq, hgood⟩

theorem gearGo_cons_fst (env : Env) (mid : Int) (rn : Nat) (rest : List Nat)
    (ce : Nat) (acc : List GearRow) (nm : Option String) (key : String)
    (hk : env.apiKey = some key) :
    (gearGo env mid (rn :: rest) ce acc nm).1 =
      (if (raceData env mid rn).isEmpty then
         (if 2 ≤ ce + 1 then .ok (finalFilter acc, nm)
          else (gearGo env mid rest (ce + 1) acc nm).1)
       else
         (gearGo env mid rest 0 (acc ++ gearRowsOfRace rn (raceData env mid rn))
           (match nm with | some s => some s | none => firstTrackName (raceData env mid rn))).1) := by
  simp only [gearGo, getCsv, hk, raceData]
  by_cases he : (env.csvData (PF_FORM_CSV_URL, formParams mid rn)).isEmpty
  · by_cases hce : 2 ≤ ce + 1 <;> simp [he, hce]
  · simp [he]

theorem gearGo_rows_inv (env : Env) (mid : Int) :
    ∀ (rns : List Nat) (ce : Nat) (acc : List GearRow) (nm : Option String)
      (rows : List GearRow) (nm' : Option String),
      (gearGo env mid rns ce acc nm).1 = .ok (rows, nm') →
      ∀ r ∈ rows, keepIdentity r = true ∧
        (r ∈ acc ∨ ∃ rn, ∃ raw ∈ raceData env mid rn, GoodRow rn raw r) := by
  intro rns
  induction rns with
  | nil =>
    intro ce acc nm rows nm' h r hr
    simp only [gearGo, Except.ok.injEq, Prod.mk.injEq] at h
    rw [← h.1] at hr
    rcases List.mem_filter.mp hr with ⟨hmem, hkeep⟩
    exact ⟨hkeep, Or.inl hmem⟩
  | cons rn rest ih =>
    intro ce acc nm rows nm' h r hr
    cases hk : env.apiKey with
    | none =>
      rw [gearGo_none_trace env mid rn rest ce acc nm hk] at h
      simp at h
    | some key =>
      rw [gearGo_cons_fst env mid rn rest ce acc nm key hk] at h
      by_cases he : (raceData env mid rn).isEmpty
      · rw [if_pos he] at h
        by_cases hce : 2 ≤ ce + 1
        · rw [if_pos hce] at h
          simp only [Except.ok.injEq, Prod.mk.injEq] at h
          rw [← h.1] at hr
          rcases List.mem_filter.mp hr with ⟨hmem, hkeep⟩
          exact ⟨hkeep, Or.inl hmem⟩
        · rw [if_neg hce] at h
          exact ih (ce + 1) acc nm rows nm' h r hr
      · rw [if_neg he] at h
        rcases ih 0 _ _ rows nm' h r hr with ⟨hkeep, hsrc⟩
        refine ⟨hkeep, ?_⟩
        rcases hsrc with hsrc | hsrc
        · rcases List.mem_append.mp hsrc with h1 | h1
          · exact Or.inl h1
          · rcases mem_gearRowsOfRace_fold rn (raceData env mid rn) [] r h1 with h2 | h2
            · simp at h2
            · rcases h2 with ⟨raw, hraw, hgood⟩
              exact Or.inr ⟨rn, raw, hraw, hgood⟩
        · exact Or.inr hsrc

/-- C3: every gear row in the extraction output has non-blank gear text (it
is stored stripped and non-empty), satisfies the identity filter (a horse
name or a runner id is present), and originates from a fetched row that was
not flagged scratched. -/
theorem gear_rows_invariant (env : Env) (mid : Int) (rows : List GearRow)
    (nm : Option String) (h : (gearFromMeetingCsv env mid).1 = .ok (rows, nm)) :
    ∀ r ∈ rows,
      r.gearChange ≠ "" ∧ pyStripStr r.gearChange = r.gearChange ∧
      keepIdentity r = true ∧ (r.horseName.isSome ∨ r.runnerId.isSome) ∧
      ∃ rn raw, raw ∈ raceData env mid rn ∧ _is_scratched (canonise raw) = false ∧
        ∃ g, dget (canonise raw) "gearchanges" = Val.str g ∧
          r = gearRowOfRec rn (canonise raw) g := by
  intro r hr
  rcases gearGo_rows_inv env mid (List.range' 1 15) 0 [] Option.none rows nm h r hr with
    ⟨hkeep, hsrc⟩
  rcases hsrc with habs | ⟨rn, raw, hraw, g, hg, hgs, hscr, heq⟩
  · simp at habs
  · have hgear : r.gearChange = pyStripStr g := by rw [heq]; rfl
    have hsome : r.horseName.isSome ∨ r.runnerId.isSome := by
      simp only [keepIdentity, Bool.or_eq_true] at hkeep
      rcases hkeep with h1 | h1
      · cases hh : r.horseName with
        | none => rw [hh] at h1; simp at h1
        | some s => exact Or.inl (by simp [hh])
      · cases hh : r.runnerId with
        | none => rw [hh] at h1; simp at h1
        | some n => exact Or.inr (by simp [hh])
    refine ⟨?_, ?_, hkeep, hsome, rn, raw, hraw, hscr, g, hg, heq⟩
    · rw [hgear]
      exact hgs
    · rw [hgear]
      exact pyStripStr_idem g

/-- Witness for C3: the invariant holds on the concrete extraction result of
`envGear`, whose single retained row is `rowFast`. -/
theorem gear_rows_invariant_witness :
    keepIdentity rowFast = true ∧ rowFast.gearChange ≠ "" ∧
    (rowFast.horseName.isSome ∨ rowFast.runnerId.isSome) := by
  have h := gear_rows_invariant envGear 5 [rowFast] Option.none rfl rowFast
    (List.mem_singleton.mpr rfl)
  exact ⟨h.2.2.1, h.1, h.2.2.2.1⟩

/-! ### Lemmas on stable insertion sort -/

theorem mem_insertLe {α : Type} (le : α → α → Bool) (x : α) :
    ∀ (l : List α) (y : α), y ∈ insertLe le x l → y = x ∨ y ∈ l := by
  intro l
  induction l with
  | nil =>
    intro y h
    unfold insertLe at h
    rw [List.mem_singleton] at h
    exact Or.inl h
  | cons z zs ih =>
    intro y h
    unfold insertLe at h
    by_cases hz : le z x = true
    · rw [if_pos hz] at h
      rcases List.mem_cons.mp h with rfl | h2
      · exact Or.inr (List.mem_cons_self _ _)
      · rcases ih y h2 with h3 | h3
        · exact Or.inl h3
        · exact Or.inr (List.mem_cons_of_mem _ h3)
    · rw [if_neg hz] at h
      rcases List.mem_cons.mp h with rfl | h2
      · exact Or.inl rfl
      · exact Or.inr h2

theorem pairwise_insertLe {α : Type} (le : α → α → Bool)
    (htot : ∀ a b, le a b = true ∨ le b a = true)
    (htr : ∀ a b c, le a b = true → le b c = true → le a c = true)
    (x : α) : ∀ (l : List α), l.Pairwise (fun a b => le a b = true) →
      (insertLe le x l).Pairwise (fun a b => le a b = true) := by
  intro l
  induction l with
  | nil => intro _; exact List.pairwise_singleton _ _
  | cons z zs ih =>
    intro hp
    rcases List.pairwise_cons.mp hp with ⟨hz, hzs⟩
    unfold insertLe
    by_cases hzx : le z x = true
    · rw [if_pos hzx]
      refine List.pairwise_cons.mpr ⟨?_, ih hzs⟩
      intro y hy
      rcases mem_insertLe le x zs y hy with rfl | h2
      · exact hzx
      · exact hz y h2
    · rw [if_neg hzx]
      refine List.pairwise_cons.mpr ⟨?_, hp⟩
      intro y hy
      rcases List.mem_cons.mp hy with rfl | h2
      · rcases htot x y with h | h
        · exact h
        · exact absurd h hzx
      · rcases htot x z with h | h
        · exact htr x z y h (hz y h2)
        · exact absurd h hzx

theorem pairwise_isort {α : Type} (le : α → α → Bool)
    (htot : ∀ a b, le a b = true ∨ le b a = true)
    (htr : ∀ a b c, le a b = true → le b c = true → le a c = true)
    (l : List α) : (isort le l).Pairwise (fun a b => le a b = true) := by
  suffices aux : ∀ (l acc : List α), acc.Pairwise (fun a b => le a b = true) →
      (l.foldl (fun acc x => insertLe le x acc) acc).Pairwise (fun a b => le a b = true) by
    exact aux l [] List.Pairwise.nil
  intro l
  induction l with
  | nil => intro acc h; exact h
  | cons x xs ih =>
    intro acc h
    exact ih _ (pairwise_insertLe le htot htr x acc h)

theorem perm_insertLe {α : Type} (le : α → α → Bool) (x : α) :
    ∀ l : List α, List.Perm (insertLe le x l) (x :: l) := by
  intro l
  induction l with
  | nil => exact List.Perm.refl _
  | cons z zs ih =>
    unfold insertLe
    by_cases hz : le z x = true
    · rw [if_pos hz]
      exact (ih.cons z).trans (List.Perm.swap x z zs)
    · rw [if_neg hz]

theorem perm_isort {α : Type} (le : α → α → Bool) (l : List α) :
    List.Perm (isort le l) l := by
  suffices aux : ∀ (l acc : List α),
      List.Perm (l.foldl (fun acc x => insertLe le x acc) acc) (l ++ acc) by
    simpa using aux l []
  intro l
  induction l with
  | nil => intro acc; exact List.Perm.refl _
  | cons x xs ih =>
    intro acc
    simp only [List.foldl_cons]
    refine (ih (insertLe le x acc)).trans ?_
    refine (List.Perm.append_left xs (perm_insertLe le x acc)).trans ?_
    exact List.perm_middle

/-! ### Lemmas on the runner and race orderings -/

theorem charListLe_total : ∀ l1 l2 : List Char,
    charListLe l1 l2 = true ∨ charListLe l2 l1 = true := by
  intro l1
  induction l1 with
  | nil => intro l2; exact Or.inl rfl
  | cons a as ih =>
    intro l2
    cases l2 with
    | nil => exact Or.inr rfl
    | cons b bs =>
      simp only [charListLe, Bool.or_eq_true, Bool.and_eq_true, decide_eq_true_eq, beq_iff_eq]
      rcases Nat.lt_trichotomy a.toNat b.toNat with h | h | h
      · exact Or.inl (Or.inl h)
      · rcases ih bs with h2 | h2
        · exact Or.inl (Or.inr ⟨h, h2⟩)
        · exact Or.inr (Or.inr ⟨h.symm, h2⟩)
      · exact Or.inr (Or.inl h)

theorem charListLe_trans : ∀ l1 l2 l3 : List Char,
    charListLe l1 l2 = true → charListLe l2 l3 = true → charListLe l1 l3 = true := by
  intro l1
  induction l1 with
  | nil => intro l2 l3 _ _; rfl
  | cons a as ih =>
    intro l2 l3 h12 h23
    cases l2 with
    | nil => simp [charListLe] at h12
    | cons b bs =>
      cases l3 with
      | nil => simp [charListLe] at h23
      | cons c cs =>
        simp only [charListLe, Bool.or_eq_true, Bool.and_eq_true, decide_eq_true_eq,
          beq_iff_eq] at h12 h23 ⊢
        rcases h12 with h12 | ⟨hab, h12⟩
        · rcases h23 with h23 | ⟨hbc, h23⟩
          · exact Or.inl (by omega)
          · exact Or.inl (by omega)
        · rcases h23 with h23 | ⟨hbc, h23⟩
          · exact Or.inl (by omega)
          · exact Or.inr ⟨by omega, ih bs cs h12 h23⟩

theorem keyLe_total (p q : Bool × Int × List Char) :
    keyLe p q = true ∨ keyLe q p = true := by
  rcases p with ⟨b1, n1, s1⟩
  rcases q with ⟨b2, n2, s2⟩
  simp only [keyLe, boolLt, Bool.or_eq_true, Bool.and_eq_true, decide_eq_true_eq, beq_iff_eq]
  cases b1 <;> cases b2 <;> simp
  all_goals
    rcases Int.lt_trichotomy n1 n2 with h | h | h
  · exact Or.inl (Or.inl h)
  · rcases charListLe_total s1 s2 with h2 | h2
    · exact Or.inl (Or.inr ⟨h, h2⟩)
    · exact Or.inr (Or.inr ⟨h.symm, h2⟩)
  · exact Or.inr (Or.inl h)
  · exact Or.inl (Or.inl h)
  · rcases charListLe_total s1 s2 with h2 | h2
    · exact Or.inl (Or.inr ⟨h, h2⟩)
    · exact Or.inr (Or.inr ⟨h.symm, h2⟩)
  · exact Or.inr (Or.inl h)

theorem keyLe_trans (p q r : Bool × Int × List Char)
    (h1 : keyLe p q = true) (h2 : keyLe q r = true) : keyLe p r = true := by
  rcases p with ⟨b1, n1, s1⟩
  rcases q with ⟨b2, n2, s2⟩
  rcases r with ⟨b3, n3, s3⟩
  simp only [keyLe, boolLt, Bool.or_eq_true, Bool.and_eq_true, decide_eq_true_eq,
    beq_iff_eq] at h1 h2 ⊢
  cases b1 <;> cases b2 <;> cases b3 <;> simp_all
  all_goals
    rcases h1 with h1 | ⟨hn1, hs1⟩ <;> rcases h2 with h2 | ⟨hn2, hs2⟩
  · exact Or.inl (by omega)
  · exact Or.inl (by omega)
  · exact Or.inl (by omega)
  · exact Or.inr ⟨by omega, charListLe_trans _ _ _ hs1 hs2⟩
  · exact Or.inl (by omega)
  · exact Or.inl (by omega)
  · exact Or.inl (by omega)
  · exact Or.inr ⟨by omega, charListLe_trans _ _ _ hs1 hs2⟩

theorem runnerLe_total (a b : RunnerOut) : runnerLe a b = true ∨ runnerLe b a = true :=
  keyLe_total (runnerSortKey a) (runnerSortKey b)

theorem runnerLe_trans (a b c : RunnerOut) (h1 : runnerLe a b = true)
    (h2 : runnerLe b c = true) : runnerLe a c = true :=
  keyLe_trans _ _ _ h1 h2

theorem groupLe_total (a b : Nat × List RunnerOut) :
    groupLe a b = true ∨ groupLe b a = true := by
  simp only [groupLe, decide_eq_true_eq]
  omega

theorem groupLe_trans (a b c : Nat × List RunnerOut) (h1 : groupLe a b = true)
    (h2 : groupLe b c = true) : groupLe a c = true := by
  simp only [groupLe, decide_eq_true_eq] at h1 h2 ⊢
  omega

/-! ### Lemmas on the race grouping -/

theorem mem_addToGroup_nonempty (gs : List (Nat × List RunnerOut)) (rn : Nat) (r : RunnerOut)
    (hgs : ∀ g ∈ gs, g.2 ≠ []) : ∀ g ∈ addToGroup gs rn r, g.2 ≠ [] := by
  intro g hg
  unfold addToGroup at hg
  by_cases ha : gs.any (fun g => g.1 == rn) = true
  · rw [if_pos ha] at hg
    rcases List.mem_map.mp hg with ⟨g0, hg0, rfl⟩
    split
    · simp
    · exact hgs g0 hg0
  · rw [if_neg ha] at hg
    rcases List.mem_append.mp hg with h1 | h1
    · exact hgs g h1
    · rw [List.mem_singleton] at h1
      rw [h1]
      simp

theorem map_fst_addToGroup_update (gs : List (Nat × List RunnerOut)) (rn : Nat) (r : RunnerOut) :
    (gs.map (fun g => if g.1 == rn then (g.1, g.2 ++ [r]) else g)).map Prod.fst =
      gs.map Prod.fst := by
  induction gs with
  | nil => rfl
  | cons g rest ih =>
    simp only [List.map_cons]
    congr 1
    split <;> rfl

theorem nodup_fst_addToGroup (gs : List (Nat × List RunnerOut)) (rn : Nat) (r : RunnerOut)
    (h : (gs.map Prod.fst).Nodup) : ((addToGroup gs rn r).map Prod.fst).Nodup := by
  unfold addToGroup
  by_cases ha : gs.any (fun g => g.1 == rn) = true
  · rw [if_pos ha, map_fst_addToGroup_update]
    exact h
  · rw [if_neg ha]
    have hrn : rn ∉ gs.map Prod.fst := by
      intro hmem
      rcases List.mem_map.mp hmem with ⟨g, hg, hgeq⟩
      exact ha (List.any_eq_true.mpr ⟨g, hg, by simp [hgeq]⟩)
    simp [List.nodup_append, h, hrn]

theorem groupRows_inv (rows : List GearRow) :
    (∀ g ∈ groupRows rows, g.2 ≠ []) ∧ ((groupRows rows).map Prod.fst).Nodup := by
  suffices aux : ∀ (l : List GearRow) (gs : List (Nat × List RunnerOut)),
      (∀ g ∈ gs, g.2 ≠ []) → (gs.map Prod.fst).Nodup →
      (∀ g ∈ l.foldl (fun gs r => addToGroup gs r.raceNumber (toRunnerOut r)) gs, g.2 ≠ []) ∧
      ((l.foldl (fun gs r => addToGroup gs r.raceNumber (toRunnerOut r)) gs).map Prod.fst).Nodup by
    exact aux rows [] (by simp) (by simp)
  intro l
  induction l with
  | nil => intro gs h1 h2; exact ⟨h1, h2⟩
  | cons r rest ih =>
    intro gs h1 h2
    simp only [List.foldl_cons]
    exact ih _ (mem_addToGroup_nonempty gs _ _ h1) (nodup_fst_addToGroup gs _ _ h2)

theorem racesOut_spec (rows : List GearRow) :
    (racesOut rows).Pairwise (fun a b => a.raceNumber < b.raceNumber) ∧
    ∀ ro ∈ racesOut rows, ro.runners ≠ [] ∧
      ro.runners.Pairwise (fun a b => runnerLe a b = true) := by
  constructor
  · unfold racesOut
    rw [List.pairwise_map]
    have hle : (isort groupLe (groupRows rows)).Pairwise (fun a b => groupLe a b = true) :=
      pairwise_isort groupLe groupLe_total groupLe_trans _
    have hnd : ((isort groupLe (groupRows rows)).map Prod.fst).Nodup := by
      have hperm : List.Perm ((isort groupLe (groupRows rows)).map Prod.fst)
          ((groupRows rows).map Prod.fst) :=
        (perm_isort groupLe (groupRows rows)).map Prod.fst
      exact hperm.nodup_iff.mpr (groupRows_inv rows).2
    have hne : (isort groupLe (groupRows rows)).Pairwise (fun a b => Prod.fst a ≠ Prod.fst b) :=
      List.pairwise_map.mp hnd
    refine (hle.and hne).imp ?_
    intro a b hab
    rcases hab with ⟨hab1, hab2⟩
    simp only [groupLe, decide_eq_true_eq] at hab1
    exact lt_of_le_of_ne hab1 hab2
  · intro ro hro
    unfold racesOut at hro
    rcases List.mem_map.mp hro with ⟨g, hg, rfl⟩
    constructor
    · have hne := (groupRows_inv rows).1 g
        ((perm_isort groupLe (groupRows rows)).mem_iff.mp hg)
      intro hnil
      apply hne
      have hlen := (perm_isort runnerLe g.2).length_eq
      rw [show (isort runnerLe g.2) = ([] : List RunnerOut) from hnil] at hlen
      exact List.length_eq_zero.mp hlen.symm
    · exact pairwise_isort runnerLe runnerLe_total runnerLe_trans g.2

/-! ### Lemmas on the aggregator -/

theorem fetchMeetings_ids (env : Env) :
    ∀ (ms : List Meeting) (outs : List MeetingOut),
      (fetchMeetings env ms).1 = .ok outs →
      outs.map (fun o => o.meetingId) = ms.map outIdOf := by
  intro ms
  induction ms with
  | nil =>
    intro outs h
    simp only [fetchMeetings, Except.ok.injEq] at h
    rw [← h]
    rfl
  | cons m rest ih =>
    intro outs h
    cases hd : (match m.meetingId with
        | some n => if n = 0 then Option.none else some n
        | none => (Option.none : Option Int)) with
    | none =>
      have hstep : (fetchMeetings env (m :: rest)).1 =
          (fetchMeetings env rest).1.map
            (fun l => (⟨Option.none, m.meeting, []⟩ : MeetingOut) :: l) := by
        simp only [fetchMeetings, hd]
      rw [hstep] at h
      cases hrest : (fetchMeetings env rest).1 with
      | error e =>
        rw [hrest] at h
        simp [Except.map] at h
      | ok l =>
        rw [hrest] at h
        simp only [Except.map, Except.ok.injEq] at h
        rw [← h]
        simp only [List.map_cons]
        rw [ih l hrest]
        have hout : outIdOf m = Option.none := by
          unfold outIdOf
          rw [hd]
        rw [hout]
    | some mid =>
      rcases hg : gearFromMeetingCsv env mid with ⟨res, t⟩
      cases res with
      | error e =>
        have hstep : (fetchMeetings env (m :: rest)).1 = .error e := by
          simp only [fetchMeetings, hd, hg]
        rw [hstep] at h
        simp at h
      | ok pr =>
        rcases pr with ⟨rows, tn⟩
        have hstep : (fetchMeetings env (m :: rest)).1 =
            (fetchMeetings env rest).1.map
              (fun l => mkMeetingOut mid m.meeting tn rows :: l) := by
          simp only [fetchMeetings, hd, hg]
        rw [hstep] at h
        cases hrest : (fetchMeetings env rest).1 with
        | error e =>
          rw [hrest] at h
          simp [Except.map] at h
        | ok l =>
          rw [hrest] at h
          simp only [Except.map, Except.ok.injEq] at h
          rw [← h]
          simp only [List.map_cons]
          rw [ih l hrest]
          have hout : outIdOf m = some mid := by
            unfold outIdOf
            rw [hd]
          rw [hout]
          rfl

theorem fetchMeetings_races (env : Env) :
    ∀ (ms : List Meeting) (outs : List MeetingOut),
      (fetchMeetings env ms).1 = .ok outs →
      ∀ o ∈ outs, o.races.Pairwise (fun a b => a.raceNumber < b.raceNumber) ∧
        ∀ ro ∈ o.races, ro.runners ≠ [] ∧
          ro.runners.Pairwise (fun a b => runnerLe a b = true) := by
  intro ms
  induction ms with
  | nil =>
    intro outs h o ho
    simp only [fetchMeetings, Except.ok.injEq] at h
    rw [← h] at ho
    simp at ho
  | cons m rest ih =>
    intro outs h o ho
    cases hd : (match m.meetingId with
        | some n => if n = 0 then Option.none else some n
        | none => (Option.none : Option Int)) with
    | none =>
      have hstep : (fetchMeetings env (m :: rest)).1 =
          (fetchMeetings env rest).1.map
            (fun l => (⟨Option.none, m.meeting, []⟩ : MeetingOut) :: l) := by
        simp only [fetchMeetings, hd]
      rw [hstep] at h
      cases hrest : (fetchMeetings env rest).1 with
      | error e =>
        rw [hrest] at h
        simp [Except.map] at h
      | ok l =>
        rw [hrest] at h
        simp only [Except.map, Except.ok.injEq] at h
        rw [← h] at ho
        rcases List.mem_cons.mp ho with rfl | ho2
        · exact ⟨List.Pairwise.nil, by intro ro hro; simp at hro⟩
        · exact ih l hrest o ho2
    | some mid =>
      rcases hg : gearFromMeetingCsv env mid with ⟨res, t⟩
      cases res with
      | error e =>
        have hstep : (fetchMeetings env (m :: rest)).1 = .error e := by
          simp only [fetchMeetings, hd, hg]
        rw [hstep] at h
        simp at h
      | ok pr =>
        rcases pr with ⟨rows, tn⟩
        have hstep : (fetchMeetings env (m :: rest)).1 =
            (fetchMeetings env rest).1.map
              (fun l => mkMeetingOut mid m.meeting tn rows :: l) := by
          simp only [fetchMeetings, hd, hg]
        rw [hstep] at h
        cases hrest : (fetchMeetings env rest).1 with
        | error e =>
          rw [hrest] at h
          simp [Except.map] at h
        | ok l =>
          rw [hrest] at h
          simp only [Except.map, Except.ok.injEq] at h
          rw [← h] at ho
          rcases List.mem_cons.mp ho with rfl | ho2
          · exact ⟨(racesOut_spec rows).1, (racesOut_spec rows).2⟩
          · exact ih l hrest o ho2

/-- C7: in every report, races within a meeting are strictly ascending by
race number with no zero-runner race objects, runners within a race are
ordered by the (number-present, number, case-insensitive name) key, and
meetings keep the discovery order. -/
theorem report_ordering (env : Env) (dateStr : String) (rep : Report)
    (ms : List Meeting) (tms : List Call)
    (h : (fetchGearForDate env dateStr).1 = .ok rep)
    (hms : meetingsForDate env dateStr = (.ok ms, tms)) :
    rep.meetings.map (fun o => o.meetingId) = ms.map outIdOf ∧
    ∀ o ∈ rep.meetings,
      o.races.Pairwise (fun a b => a.raceNumber < b.raceNumber) ∧
      ∀ ro ∈ o.races, ro.runners ≠ [] ∧
        ro.runners.Pairwise (fun a b => runnerLe a b = true) := by
  rcases hfm : fetchMeetings env ms with ⟨res, t'⟩
  cases res with
  | error e =>
    have hstep : (fetchGearForDate env dateStr).1 = .error e := by
      simp only [fetchGearForDate, hms, hfm]
    rw [hstep] at h
    simp at h
  | ok outs =>
    have hstep : (fetchGearForDate env dateStr).1 = .ok ⟨dateStr, outs⟩ := by
      simp only [fetchGearForDate, hms, hfm]
    rw [hstep] at h
    simp only [Except.ok.injEq] at h
    rw [← h]
    constructor
    · exact fetchMeetings_ids env ms outs (by rw [hfm])
    · intro o ho
      exact fetchMeetings_races env ms outs (by rw [hfm]) o ho

/-- Witness for C7: the concrete report of `envAgg` satisfies the ordering —
in particular its two runners are sorted with the numbered runner first. -/
theorem report_ordering_witness :
    repAgg.meetings.map (fun o => o.meetingId) = [some 101] ∧
    ∀ o ∈ repAgg.meetings, ∀ ro ∈ o.races,
      ro.runners ≠ [] ∧ ro.runners.Pairwise (fun a b => runnerLe a b = true) := by
  have h := report_ordering envAgg "2025-06-01" repAgg
    [⟨some 101, Val.str "Caulfield"⟩] (meetingsForDate envAgg "2025-06-01").2 rfl rfl
  exact ⟨h.1, fun o ho ro hro => (h.2 o ho).2 ro hro⟩

end PFGear
